import Mathlib

/-!
Verification development for the unified search + content extraction
subsystem (src/src/services/unified_search_manager.py,
src/src/services/url_resolver.py, src/src/services/robust_content_extractor.py).

Strings are modelled as `List Char` (the model alias `Str`).  Library calls
made by the source (urllib.parse, requests, BeautifulSoup, the extraction
libraries) are modelled at the call boundary: pure parsing helpers
(urlparse, unquote, parse_qs, urlencode, base64) are given executable
models restricted to the URL shapes the code handles (documented on each
definition), while network responses and third-party extractor outputs are
supplied as explicit parameters of the modelled functions.
-/

/-- Model of a Python `str` value. -/
abbrev Str := List Char

/-- Shorthand to obtain the character-list model of a string literal. -/
def lit (s : String) : Str := s.toList

/-- `startsWith pat s` holds when `pat` is an initial segment of `s`
(models Python `str.startswith`). -/
def startsWith : Str → Str → Bool
  | [], _ => true
  | _ :: _, [] => false
  | p :: ps, c :: cs => p == c && startsWith ps cs

/-- `occursIn pat s` models the Python substring test `pat in s`. -/
def occursIn (pat : Str) : Str → Bool
  | [] => startsWith pat []
  | c :: cs => startsWith pat (c :: cs) || occursIn pat cs

/-- Whitespace characters removed by Python `str.strip()`. -/
def pyWhitespace : List Char := [' ', '\t', '\n', '\x0b', '\x0c', '\r']

/-- Model of Python `str.isspace()` for a single character (ASCII range). -/
def isPyWs (c : Char) : Bool := pyWhitespace.contains c

/-- Model of Python `str.strip()`: removes leading and trailing whitespace. -/
def pyStrip (s : Str) : Str :=
  ((s.dropWhile isPyWs).reverse.dropWhile isPyWs).reverse

/-- ASCII lower-casing of one character (models Python `str.lower` on the
ASCII inputs the code deals with). -/
def lowerChar (c : Char) : Char :=
  if 65 ≤ c.toNat ∧ c.toNat ≤ 90 then Char.ofNat (c.toNat + 32) else c

/-- ASCII lower-casing of a string. -/
def pyLower (s : Str) : Str := s.map lowerChar

/-- `endsWithStr pat s` models Python `str.endswith`. -/
def endsWithStr (pat s : Str) : Bool := startsWith pat.reverse s.reverse

/-- Split a list at the first occurrence of `sep`; the second component is
`none` when `sep` does not occur (models `str.split(sep, 1)`). -/
def splitFirstChar (sep : Char) : Str → Str × Option Str
  | [] => ([], none)
  | c :: cs =>
    if c == sep then ([], some cs)
    else
      let r := splitFirstChar sep cs
      (c :: r.1, r.2)

/-- Model of Python `str.split(sep)` (keeps empty chunks, `''` splits to
a single empty chunk). -/
def splitOnChar (sep : Char) : Str → List Str
  | [] => [[]]
  | c :: cs =>
    if c == sep then [] :: splitOnChar sep cs
    else
      match splitOnChar sep cs with
      | [] => [[c]]
      | h :: t => (c :: h) :: t

/-- Hexadecimal value of a character, if any. -/
def hexVal (c : Char) : Option Nat :=
  if 48 ≤ c.toNat ∧ c.toNat ≤ 57 then some (c.toNat - 48)
  else if 97 ≤ c.toNat ∧ c.toNat ≤ 102 then some (c.toNat - 87)
  else if 65 ≤ c.toNat ∧ c.toNat ≤ 70 then some (c.toNat - 55)
  else none

/-- Upper-case hexadecimal digit for a value below 16. -/
def hexDigit (n : Nat) : Char :=
  if n < 10 then Char.ofNat (48 + n) else Char.ofNat (55 + n)

/-- Is `c` an ASCII letter? -/
def isAsciiAlpha (c : Char) : Bool :=
  (65 ≤ c.toNat ∧ c.toNat ≤ 90) || (97 ≤ c.toNat ∧ c.toNat ≤ 122)

/-- Is `c` an ASCII letter or digit? -/
def isAsciiAlphaNum (c : Char) : Bool :=
  isAsciiAlpha c || (48 ≤ c.toNat ∧ c.toNat ≤ 57)

/-! ## URL parsing model

`urlparseModel` models `urllib.parse.urlparse` on the absolute URLs the
code handles: `scheme://netloc/path?query#fragment`.  The scheme is
recognised exactly as CPython does (a nonempty run of ASCII
letters/digits/`+`/`-`/`.` starting with a letter, before the first `:`,
lower-cased); a netloc is taken only when the remainder starts with `//`
and runs to the first of `/`, `?`, `#`; the fragment is split off before
the query.  Params (`;`) and the pre-3.6 whitespace sanitisation are not
modelled (every call site strips its input first). -/

/-- Characters allowed inside a URL scheme after the first letter. -/
def schemeChar (c : Char) : Bool :=
  isAsciiAlphaNum c || c == '+' || c == '-' || c == '.'

/-- The components returned by the urlparse model. -/
structure UrlParts where
  scheme : Str
  netloc : Str
  path : Str
  query : Str
  deriving Repr, DecidableEq

/-- Split a leading `scheme:` off a URL, if present and valid. -/
def splitScheme (u : Str) : Option (Str × Str) :=
  match splitFirstChar ':' u with
  | (_, none) => none
  | (pre, some rest) =>
    match pre with
    | [] => none
    | c :: _ =>
      if isAsciiAlpha c && pre.all schemeChar then some (pyLower pre, rest)
      else none

/-- May a character belong to the netloc component? -/
def netlocChar (c : Char) : Bool := !(c == '/' || c == '?' || c == '#')

/-- Parse everything after the (possibly empty) scheme. -/
def parseAfterScheme (s : Str) (r : Str) : UrlParts :=
  let (n, rem) :=
    if startsWith (lit "//") r then
      ((r.drop 2).takeWhile netlocChar, (r.drop 2).dropWhile netlocChar)
    else ([], r)
  let r2 := (splitFirstChar '#' rem).1
  let (pa, q) := splitFirstChar '?' r2
  ⟨s, n, pa, q.getD []⟩

/-- Model of `urllib.parse.urlparse` (see the section comment above). -/
def urlparseModel (u : Str) : UrlParts :=
  match splitScheme u with
  | some (s, rest) => parseAfterScheme s rest
  | none => parseAfterScheme [] u

/-! ## Percent / base64 decoding models -/

/-- Unicode replacement character produced by `errors='replace'`. -/
def replacementChar : Char := Char.ofNat 0xFFFD

/-- Model of `urllib.parse.unquote` for the ASCII percent-encodings the
code handles: `%xx` hex pairs decode to the corresponding character,
invalid escapes are left as-is, and a decoded byte ≥ 0x80 becomes U+FFFD
(CPython decodes the byte run as UTF-8 with `errors='replace'`;
multi-byte UTF-8 sequences are not modelled). -/
def pyUnquote : Str → Str
  | [] => []
  | '%' :: a :: b :: rest =>
    match hexVal a, hexVal b with
    | some x, some y =>
      let n := 16 * x + y
      (if n < 128 then Char.ofNat n else replacementChar) :: pyUnquote rest
    | _, _ => '%' :: pyUnquote (a :: b :: rest)
  | c :: cs => c :: pyUnquote cs

/-- Model of `urllib.parse.unquote_plus`: `+` becomes a space, then
percent-decoding. -/
def unquotePlus (s : Str) : Str :=
  pyUnquote (s.map fun c => if c == '+' then ' ' else c)

/-- Base64 value of an alphabet character, if any. -/
def b64val (c : Char) : Option Nat :=
  if 65 ≤ c.toNat ∧ c.toNat ≤ 90 then some (c.toNat - 65)
  else if 97 ≤ c.toNat ∧ c.toNat ≤ 122 then some (c.toNat - 71)
  else if 48 ≤ c.toNat ∧ c.toNat ≤ 57 then some (c.toNat + 4)
  else if c == '+' then some 62
  else if c == '/' then some 63
  else none

/-- Decode a run of base64 alphabet characters (no padding) to bytes. -/
def b64groups : Str → Option (List Nat)
  | [] => some []
  | a :: b :: c :: d :: rest => do
    let va ← b64val a; let vb ← b64val b; let vc ← b64val c; let vd ← b64val d
    let tail ← b64groups rest
    pure ([(va * 4 + vb / 16) % 256, (vb % 16) * 16 + vc / 4,
           (vc % 4) * 64 + vd] ++ tail)
  | [a, b] => do
    let va ← b64val a; let vb ← b64val b
    pure [(va * 4 + vb / 16) % 256]
  | [a, b, c] => do
    let va ← b64val a; let vb ← b64val b; let vc ← b64val c
    pure [(va * 4 + vb / 16) % 256, (vb % 16) * 16 + vc / 4]
  | [_] => none

/-- Model of `base64.b64decode(...).decode('utf-8')` restricted to
canonical ASCII payloads: characters outside the alphabet are discarded
(CPython `validate=False`), the padded length must be a multiple of 4,
and any decoded byte ≥ 0x80 is treated as a failure (`none`, modelling
the exception swallowed by the source's bare `except`). -/
def b64utf8 (s : Str) : Option Str :=
  let kept := s.filter fun c => (b64val c).isSome || c == '='
  if kept.length % 4 != 0 then none
  else
    let body := kept.takeWhile fun c => !(c == '=')
    if (kept.drop body.length).all (· == '=') && kept.length ≤ body.length + 2 then
      match b64groups body with
      | none => none
      | some bytes =>
        if bytes.all (· < 128) then some (bytes.map Char.ofNat) else none
    else none

/-! ## URLResolver model (src/src/services/url_resolver.py) -/

/-- The substring the source uses to recognise Bing click-through URLs
(`'bing.com/ck/a' in url`). -/
def bingMarker : Str := lit "bing.com/ck/a"

/-- Scan for `&u=` and capture the following nonempty `[^&]+` run,
continuing the scan when the capture would be empty (models the regex
backtracking of `.*?&u=([^&]+)`). -/
def findAmpU : Str → Option Str
  | [] => none
  | c :: cs =>
    if startsWith (lit "&u=") (c :: cs) then
      let v := ((c :: cs).drop 3).takeWhile fun x => !(x == '&')
      if v.isEmpty then findAmpU cs else some v
    else findAmpU cs

/-- Model of `re.search(r'bing\.com/ck/a\?.*?&u=([^&]+)', url)`: the
match anchors at the first occurrence of `bing.com/ck/a?` and the capture
is the first nonempty `&u=`-value after it (equivalent to the regex on
newline-free inputs, which URLs are). -/
def bingFindTarget : Str → Option Str
  | [] => none
  | c :: cs =>
    if startsWith (lit "bing.com/ck/a?") (c :: cs) then
      findAmpU ((c :: cs).drop 14)
    else bingFindTarget cs

/-- Model of `URLResolver._resolve_bing_redirect`. -/
def resolve_bing_redirect (bing_url : Str) : Option Str :=
  match bingFindTarget bing_url with
  | none => none
  | some encoded =>
    let decoded := pyUnquote encoded
    let decoded2 :=
      if startsWith (lit "a1aHR0c") decoded then
        match b64utf8 decoded with
        | some d => d
        | none => decoded
      else decoded
    if startsWith (lit "://") decoded2 then some (lit "https" ++ decoded2)
    else if startsWith (lit "http://") decoded2 || startsWith (lit "https://") decoded2 then
      some decoded2
    else some (lit "https://" ++ decoded2)

/-- Model of `URLResolver.resolve_url`.  The `not isinstance(url, str)`
branch is outside the typed model (inputs are strings by construction);
otherwise the structure mirrors the source: empty check, strip, Bing
redirect branch, scheme/netloc validation. -/
def resolve_url (url : Str) : Option Str :=
  if url.isEmpty then none
  else
    let u := pyStrip url
    if occursIn bingMarker u then resolve_bing_redirect u
    else
      let parsed := urlparseModel u
      if parsed.scheme.isEmpty || parsed.netloc.isEmpty then none
      else some u

/-- The query parameters kept by `clean_url`. -/
def essential_params : List Str :=
  [lit "id", lit "page", lit "article", lit "post", lit "slug"]

/-- Append one decoded `(name, value)` pair to a parse_qs association
list, preserving first-occurrence key order. -/
def addPair : List (Str × List Str) → Str × Str → List (Str × List Str)
  | [], (n, v) => [(n, [v])]
  | (k, vs) :: rest, (n, v) =>
    if k == n then (k, vs ++ [v]) :: rest
    else (k, vs) :: addPair rest (n, v)

/-- Model of `urllib.parse.parse_qs` with default arguments: split on
`&`, skip empty chunks, skip pairs with no `=` or an empty value, decode
names and values with `unquote_plus`, and group values by key in
first-occurrence order. -/
def parse_qs (q : Str) : List (Str × List Str) :=
  let pairs := (splitOnChar '&' q).filterMap fun chunk =>
    match splitFirstChar '=' chunk with
    | (_, none) => none
    | (n, some v) =>
      if v.isEmpty then none else some (unquotePlus n, unquotePlus v)
  pairs.foldl addPair []

/-- Characters `urllib.parse.quote_plus` leaves unencoded. -/
def quoteSafe (c : Char) : Bool :=
  isAsciiAlphaNum c || c == '_' || c == '.' || c == '-' || c == '~'

/-- Model of `urllib.parse.quote_plus` for characters below 0x100
(non-Latin-1 characters do not arise in the modelled URLs). -/
def quotePlusChar (c : Char) : Str :=
  if c == ' ' then ['+']
  else if quoteSafe c then [c]
  else ['%', hexDigit (c.toNat % 256 / 16), hexDigit (c.toNat % 16)]

/-- `quote_plus` over a string. -/
def quotePlus (s : Str) : Str := s.flatMap quotePlusChar

/-- `'&'.join` over encoded `k=v` items. -/
def joinAmp : List Str → Str
  | [] => []
  | [x] => x
  | x :: xs => x ++ '&' :: joinAmp xs

/-- Model of `urllib.parse.urlencode(..., doseq=True)` on a parse_qs
association list. -/
def urlencodeModel (ps : List (Str × List Str)) : Str :=
  joinAmp
    (ps.flatMap fun kv => kv.2.map fun v => quotePlus kv.1 ++ '=' :: quotePlus v)

/-- Rebuild `f"{scheme}://{netloc}{path}"` with an optional `?query`. -/
def buildUrl (s n pa : Str) (q : Option Str) : Str :=
  s ++ lit "://" ++ n ++ pa ++ (match q with | some qs => '?' :: qs | none => [])

/-- Model of `URLResolver.clean_url`: resolve, then keep only the
allow-listed query parameters. -/
def clean_url (url : Str) : Str :=
  if url.isEmpty then url
  else
    match resolve_url url with
    | none => url
    | some resolved =>
      let parsed := urlparseModel resolved
      if parsed.query.isEmpty then resolved
      else
        let filtered := (parse_qs parsed.query).filter fun kv =>
          essential_params.contains (pyLower kv.1)
        if filtered.isEmpty then buildUrl parsed.scheme parsed.netloc parsed.path none
        else buildUrl parsed.scheme parsed.netloc parsed.path (some (urlencodeModel filtered))

/-! ## UnifiedSearchManager model (src/src/services/unified_search_manager.py) -/

/-- A provider result dictionary as produced by the adapters.  `url` is an
`Option` because `_remove_duplicates` reads it with `result.get('url', '')`:
`none` models a missing key. -/
structure SearchResult where
  title : Str
  url : Option Str
  snippet : Str
  source : Str
  deriving Repr, DecidableEq

/-- `result.get('url', '')`. -/
def getUrl (r : SearchResult) : Str := r.url.getD []

/-- The loop body of `_remove_duplicates`: `seen` is the set of URLs kept
so far (a URL is added only when its result is kept). -/
def removeDupsAux (seen : List Str) : List SearchResult → List SearchResult
  | [] => []
  | r :: rs =>
    if !(getUrl r).isEmpty && !seen.contains (getUrl r) then
      r :: removeDupsAux (getUrl r :: seen) rs
    else removeDupsAux seen rs

/-- Model of `UnifiedSearchManager._remove_duplicates`. -/
def remove_duplicates (results : List SearchResult) : List SearchResult :=
  removeDupsAux [] results

/-- The curated Brazilian-domain allow-list (`self.preferred_domains`). -/
def preferred_domains : List Str :=
  [lit "g1.globo.com", lit "exame.com", lit "valor.globo.com",
   lit "estadao.com.br", lit "folha.uol.com.br", lit "canaltech.com.br",
   lit "tecmundo.com.br", lit "olhardigital.com.br", lit "infomoney.com.br",
   lit "startse.com", lit "revistapegn.globo.com",
   lit "epocanegocios.globo.com", lit "istoedinheiro.com.br"]

/-- `url.split('/')[2] if len(url.split('/')) > 2 else ''`. -/
def domainOf (url : Str) : Str :=
  let parts := splitOnChar '/' url
  if 2 < parts.length then parts.getD 2 [] else []

/-- `any(pref in domain for pref in self.preferred_domains)`. -/
def matchesPreferred (domain : Str) : Bool :=
  preferred_domains.any fun pref => occursIn pref domain

/-- A result enriched by `_prioritize_brazilian_sources` (the source
mutates the dictionary in place; the model wraps the base record). -/
structure PResult where
  base : SearchResult
  is_brazilian : Bool
  is_preferred : Bool
  priority_score : ℚ
  deriving Repr, DecidableEq

/-- The per-result enrichment performed by `_prioritize_brazilian_sources`
(floats modelled as rationals; the scores 1.0, 3.0, 4.0 are exact). -/
def enrich (r : SearchResult) : PResult :=
  let domain := domainOf (getUrl r)
  let braz := endsWithStr (lit ".br") domain
    || occursIn (lit "brasil") (pyLower domain) || matchesPreferred domain
  let pref := matchesPreferred domain
  { base := r, is_brazilian := braz, is_preferred := pref,
    priority_score := 1 + (if pref then (3 : ℚ) else if braz then 2 else 0) }

/-- Stable descending insertion by `priority_score`: a new element goes
after every earlier element of greater-or-equal score (the behaviour of
Python's stable `list.sort(key=..., reverse=True)`). -/
def insertDesc (x : PResult) : List PResult → List PResult
  | [] => [x]
  | y :: ys =>
    if y.priority_score ≤ x.priority_score then x :: y :: ys
    else y :: insertDesc x ys

/-- Stable descending sort by `priority_score`, modelling
`results.sort(key=lambda x: x.get('priority_score', 0), reverse=True)`. -/
def sortDesc : List PResult → List PResult
  | [] => []
  | x :: xs => insertDesc x (sortDesc xs)

/-- Model of `UnifiedSearchManager._prioritize_brazilian_sources`. -/
def prioritize_brazilian_sources (results : List SearchResult) : List PResult :=
  sortDesc (results.map enrich)

/-- The results list built by `unified_search` from the merged provider
results (`all_results` in the source): deduplicate, then prioritise. -/
def unified_results (merged : List SearchResult) : List PResult :=
  prioritize_brazilian_sources (remove_duplicates merged)

/-- `statistics.total_results` of the unified search response. -/
def total_results (merged : List SearchResult) : Nat :=
  (unified_results merged).length

/-- Per-provider circuit-breaker state (`self.providers[name]`). -/
structure Provider where
  enabled : Bool
  priority : Nat
  error_count : Nat
  max_errors : Nat
  deriving Repr, DecidableEq

/-- Model of `UnifiedSearchManager._record_provider_error`: increment the
count, and disable the provider when the count reaches `max_errors`. -/
def record_provider_error (p : Provider) : Provider :=
  { enabled := if p.max_errors ≤ p.error_count + 1 then false else p.enabled,
    priority := p.priority,
    error_count := p.error_count + 1,
    max_errors := p.max_errors }

/-- The derived `available` flag of `get_provider_status`. -/
def provider_available (p : Provider) : Bool :=
  p.enabled && decide (p.error_count < p.max_errors)

/-- One provider's entry in the `get_provider_status` map. -/
structure ProviderStatus where
  enabled : Bool
  priority : Nat
  error_count : Nat
  max_errors : Nat
  available : Bool
  deriving Repr, DecidableEq

/-- Model of `UnifiedSearchManager.get_provider_status` for one provider
(the source builds this record for every provider; it reads state and
mutates nothing). -/
def get_provider_status (p : Provider) : ProviderStatus :=
  ⟨p.enabled, p.priority, p.error_count, p.max_errors, provider_available p⟩

/-- The effect of one `unified_search` call on one provider's state:
`_record_provider_error` is invoked exactly when collecting that
provider's future raised, and nothing else is mutated. -/
def unified_search_step (p : Provider) (future_raised : Bool) : Provider :=
  if future_raised then record_provider_error p else p

/-- An HTTP response as seen by `_search_google`: the status code and the
parsed `items` array of the JSON body. -/
structure GoogleItem where
  title : Option Str
  link : Option Str
  snippet : Option Str
  deriving Repr, DecidableEq

/-- A Google Custom Search HTTP response. -/
structure GoogleResponse where
  status : Nat
  items : List GoogleItem
  deriving Repr, DecidableEq

/-- The outcome of the `requests.get` call inside `_search_google`:
either an exception or a response. -/
abbrev HttpOutcome := Except Str GoogleResponse

/-- `item.get(..., '')` normalisation of one result item. -/
def parseGoogleItem (it : GoogleItem) : SearchResult :=
  { title := it.title.getD [], url := some (it.link.getD []),
    snippet := it.snippet.getD [], source := lit "google_real" }

/-- The `try` body of `_search_google`: a non-200 status raises. -/
def search_google_body (o : HttpOutcome) : Except Str (List SearchResult) :=
  match o with
  | .error e => .error e
  | .ok resp =>
    if resp.status == 200 then .ok (resp.items.map parseGoogleItem)
    else .error (lit "Google API retornou status")

/-- Model of `UnifiedSearchManager._search_google`: the `except` clause
turns every failure into an empty result list (the serper, bing and
duckduckgo adapters have the same try/except shape). -/
def search_google (o : HttpOutcome) : List SearchResult :=
  match search_google_body o with
  | .ok rs => rs
  | .error _ => []

/-- `future.result()` for the submitted `_search_google` call: the
callable catches every exception itself, so the future always completes
normally with the adapter's return value. -/
def future_result (o : HttpOutcome) : Except Str (List SearchResult) :=
  .ok (search_google o)

/-- The collection loop body of `unified_search` for the google provider:
record a provider error exactly when `future.result()` raises. -/
def collect_google (p : Provider) (o : HttpOutcome) : Provider × List SearchResult :=
  match future_result o with
  | .ok rs => (p, rs)
  | .error _ => (record_provider_error p, [])

/-! ## RobustContentExtractor model (src/src/services/robust_content_extractor.py)

The third-party extraction engines (trafilatura, readability, newspaper,
BeautifulSoup, the PDF libraries) and the network are modelled as explicit
parameters: an oracle maps a method name to `none` (the library raised) or
`some s` (the string it returned), and download attempts are given as
their outcomes.  The control flow around them is translated from the
source.  The modelled functions additionally return the number of download
attempts performed and the sleeps between them, so that the retry
behaviour is part of the observable result. -/

/-- The full `available_extractors` list when every library imports
(initialisation order of `_initialize_extractors`). -/
def canonical_extractors : List Str :=
  [lit "trafilatura", lit "readability", lit "newspaper", lit "beautifulsoup",
   lit "pdf_pypdf2", lit "pdf_pdfplumber", lit "pdf_pymupdf"]

/-- `extractor_name.startswith('pdf_')`. -/
def isPdfMethod (m : Str) : Bool := startsWith (lit "pdf_") m

/-- The extraction-result metadata dictionary.  Fields are `Option`s:
`none` models an absent key (the failure returns build fresh dictionaries
holding only `error`). -/
structure ExtractMeta where
  url : Option Str
  extractors_tried : Option (List Str)
  extractor_used : Option Str
  content_length : Option Nat
  error : Option Str
  deriving Repr, DecidableEq

/-- A metadata dictionary holding only an `error` entry. -/
def mkErrorMeta (e : Str) : ExtractMeta := ⟨none, none, none, none, some e⟩

/-- The outcomes the three download attempts of `_download_html` would
have (each `.error` models `session.get`/`raise_for_status` raising,
`.ok` the response text). -/
structure DownloadAttempts where
  a1 : Except Str Str
  a2 : Except Str Str
  a3 : Except Str Str
  deriving Repr

/-- Model of `_download_html`: up to 3 attempts, sleeping `2 ** attempt`
seconds after each failed non-final attempt, re-raising the third
failure.  Returns (outcome, attempts made, sleeps performed). -/
def download_html (d : DownloadAttempts) : Except Str Str × Nat × List Nat :=
  match d.a1 with
  | .ok t => (.ok t, 1, [])
  | .error _ =>
    match d.a2 with
    | .ok t => (.ok t, 2, [1])
    | .error _ =>
      match d.a3 with
      | .ok t => (.ok t, 3, [1, 2])
      | .error e => (.error e, 3, [1, 2])

/-- Outputs of `_extract_with_method` per method name: `none` models the
method raising, `some s` the string it returned. -/
abbrev MethodOracle := Str → Option Str

/-- The extraction loop of `_extract_html_content`: walk`available_extractors`,
skip `pdf_*` methods, append each tried method, and stop at the first
output that is nonempty with more than 100 stripped characters.  Returns
the winning (content, method) if any, together with the tried list. -/
def try_methods (o : MethodOracle) : List Str → List Str → Option (Str × Str) × List Str
  | [], tried => (none, tried)
  | m :: ms, tried =>
    if isPdfMethod m then try_methods o ms tried
    else
      let tried2 := tried ++ [m]
      match o m with
      | none => try_methods o ms tried2
      | some s =>
        if !s.isEmpty && decide (100 < (pyStrip s).length) then (some (s, m), tried2)
        else try_methods o ms tried2

/-- The page texts `_aggressive_extraction` would see: one entry per
selector in `content_selectors` (`none` when `soup.select` finds no
elements, `some t` the joined text of the found elements), and the whole
page's `soup.get_text()`. -/
structure AggPage where
  selTexts : List (Option Str)
  fullText : Str
  deriving Repr, DecidableEq

/-- The selector loop of `_aggressive_extraction`: the first selector
whose joined text exceeds 100 characters wins. -/
def aggLoop : List (Option Str) → Option Str
  | [] => none
  | none :: rest => aggLoop rest
  | some t :: rest => if 100 < t.length then some t else aggLoop rest

/-- Model of `_aggressive_extraction` (an internal exception returns `""`,
which is subsumed by the empty-string case of the caller's check). -/
def aggressive_extraction (pg : AggPage) : Str :=
  (aggLoop pg.selTexts).getD pg.fullText

/-- The environment of one extraction call: download outcomes, extractor
outputs, aggressive-pass page texts, and the PDF path's single download
outcome and extractor outputs. -/
structure ExtractEnv where
  attempts : DownloadAttempts
  oracle : MethodOracle
  page : AggPage
  pdfGet : Except Str Str
  pdfOracle : MethodOracle

/-- The result of a modelled extraction: the (content, metadata) pair the
source returns, plus the download-attempt count and sleeps as observable
effects. -/
structure ExtractOut where
  content : Str
  meta : ExtractMeta
  download_attempts : Nat
  sleeps : List Nat
  deriving Repr, DecidableEq

/-- Model of `_extract_html_content`. -/
def extract_html_content (u : Str) (available : List Str) (env : ExtractEnv) :
    ExtractOut :=
  match download_html env.attempts with
  | (.error e, k, sl) =>
    ⟨[], mkErrorMeta (lit "Erro no download: " ++ e), k, sl⟩
  | (.ok t, k, sl) =>
    if t.isEmpty then ⟨[], mkErrorMeta (lit "Falha ao baixar HTML"), k, sl⟩
    else
      match try_methods env.oracle available [] with
      | (some (s, m), tried) =>
        ⟨s, ⟨some u, some tried, some m, some s.length, none⟩, k, sl⟩
      | (none, tried) =>
        let ag := aggressive_extraction env.page
        if !ag.isEmpty && decide (50 < (pyStrip ag).length) then
          ⟨ag, ⟨some u, some tried, some (lit "aggressive"), none, none⟩, k, sl⟩
        else ⟨[], mkErrorMeta (lit "Todos os extratores falharam"), k, sl⟩

/-- The PDF extractor preference order hard-coded in `_extract_pdf_content`. -/
def pdf_method_order : List Str :=
  [lit "pdf_pdfplumber", lit "pdf_pymupdf", lit "pdf_pypdf2"]

/-- The PDF extraction loop: only methods present in `available` are
tried; the first output with more than 100 stripped characters wins. -/
def try_pdf_methods (o : MethodOracle) (available : List Str) :
    List Str → List Str → Option (Str × Str) × List Str
  | [], tried => (none, tried)
  | m :: ms, tried =>
    if !available.contains m then try_pdf_methods o available ms tried
    else
      let tried2 := tried ++ [m]
      match o m with
      | none => try_pdf_methods o available ms tried2
      | some s =>
        if !s.isEmpty && decide (100 < (pyStrip s).length) then (some (s, m), tried2)
        else try_pdf_methods o available ms tried2

/-- Model of `_extract_pdf_content`: one download (no retry loop), then
the PDF extractor chain. -/
def extract_pdf_content (u : Str) (available : List Str) (env : ExtractEnv) :
    ExtractOut :=
  match env.pdfGet with
  | .error e => ⟨[], mkErrorMeta (lit "Erro no download do PDF: " ++ e), 1, []⟩
  | .ok _bytes =>
    match try_pdf_methods env.pdfOracle available pdf_method_order [] with
    | (some (s, m), tried) =>
      ⟨s, ⟨some u, some tried, some m, some s.length, none⟩, 1, []⟩
    | (none, _) => ⟨[], mkErrorMeta (lit "Falha na extração do PDF"), 1, []⟩

/-- `_is_pdf_url`. -/
def is_pdf_url (url : Str) : Bool :=
  endsWithStr (lit ".pdf") (pyLower url) || occursIn (lit "pdf") (pyLower url)

/-- Model of `RobustContentExtractor.extract_content`: empty-URL check,
URL resolution, PDF/HTML branch. -/
def extract_content (url : Str) (available : List Str) (env : ExtractEnv) :
    ExtractOut :=
  if url.isEmpty then ⟨[], mkErrorMeta (lit "URL vazia"), 0, []⟩
  else
    match resolve_url url with
    | none => ⟨[], mkErrorMeta (lit "URL não resolvida"), 0, []⟩
    | some resolved =>
      if is_pdf_url resolved then extract_pdf_content resolved available env
      else extract_html_content resolved available env

/-- Does method `m` win the extraction loop under oracle `o` (nonempty
output with more than 100 stripped characters)? -/
def methodWins (o : MethodOracle) (m : Str) : Bool :=
  match o m with
  | none => false
  | some s => !s.isEmpty && decide (100 < (pyStrip s).length)

/-- A download environment in which every HTTP request fails (used by the
concrete witnesses below). -/
def allFailEnv : ExtractEnv :=
  { attempts := ⟨.error (lit "HTTP 500"), .error (lit "HTTP 500"),
                 .error (lit "HTTP 500")⟩,
    oracle := fun _ => none,
    page := ⟨[], []⟩,
    pdfGet := .error (lit "HTTP 500"),
    pdfOracle := fun _ => none }

/-- A 120-character body text used by the extraction witnesses. -/
def c6long : Str :=
  lit "Lorem ipsum dolor sit amet consectetur adipiscing elit sed do eiusmod tempor incididunt ut labore et dolore magna aliqua ok"

/-- An extraction environment in which the first method returns a short
string and the second wins (used by the claim C6 witness). -/
def c6env : ExtractEnv :=
  { attempts := ⟨.ok (lit "<html><body>page</body></html>"), .error [], .error []⟩,
    oracle := fun m =>
      if m == lit "trafilatura" then some (lit "short")
      else if m == lit "readability" then some c6long
      else none,
    page := ⟨[none], c6long⟩,
    pdfGet := .error [],
    pdfOracle := fun _ => none }

/-- Concrete provider results used by the witnesses below. -/
def c1a : SearchResult :=
  ⟨lit "t1", some (lit "https://a.com/x"), lit "s1", lit "google_real"⟩

/-- A second concrete result with a distinct URL. -/
def c1b : SearchResult :=
  ⟨lit "t2", some (lit "https://b.com/y"), lit "s2", lit "serper_real"⟩

/-- A concrete result duplicating the URL of `c1a`. -/
def c1dup : SearchResult :=
  ⟨lit "t3", some (lit "https://a.com/x"), lit "s3", lit "bing_webscraping"⟩

/-- A concrete result with an empty URL. -/
def c1empty : SearchResult :=
  ⟨lit "t4", some [], lit "s4", lit "duckduckgo_webscraping"⟩

/-- A concrete result whose host ends in the Brazilian TLD. -/
def c8brazil : SearchResult :=
  ⟨lit "gov", some (lit "https://www.gov.br/economia"), lit "s", lit "google_real"⟩

/-- A concrete result whose host matches the preferred-domain list. -/
def c8pref : SearchResult :=
  ⟨lit "g1", some (lit "https://g1.globo.com/tec/noticia"), lit "s", lit "google_real"⟩

/-- A concrete result with neither locale property. -/
def c8plain : SearchResult :=
  ⟨lit "ex", some (lit "https://example.com/article"), lit "s", lit "google_real"⟩

/-! ## Theorems -/

/-- Helper: `_record_provider_error` never re-enables a disabled provider. -/
theorem record_error_keeps_disabled (p : Provider) (h : p.enabled = false) :
    (record_provider_error p).enabled = false := by
  simp only [record_provider_error]
  split <;> simp [h]

/-- Helper: after any `_record_provider_error` call, a provider whose
count has reached its threshold is disabled. -/
theorem record_error_threshold_disables (p : Provider)
    (h : (record_provider_error p).max_errors ≤ (record_provider_error p).error_count) :
    (record_provider_error p).enabled = false := by
  simp only [record_provider_error] at h ⊢
  rw [if_pos h]

/-- Helper: iterating `_record_provider_error` keeps a disabled provider
disabled. -/
theorem iterate_record_keeps_disabled (m : Nat) (p : Provider)
    (h : p.enabled = false) : (record_provider_error^[m] p).enabled = false := by
  induction m generalizing p with
  | zero => simpa using h
  | succ k ih =>
    rw [Function.iterate_succ_apply]
    exact ih _ (record_error_keeps_disabled p h)

/-- Helper: a disabled provider reports `available = false`. -/
theorem status_unavailable_of_disabled (p : Provider) (h : p.enabled = false) :
    (get_provider_status p).available = false := by
  simp [get_provider_status, provider_available, h]

/-- Claim C2: starting from any provider state satisfying the
threshold/enabled invariant (as all initial states do), once
`error_count` reaches `max_errors` through repeated
`_record_provider_error` calls, `enabled` is false, `get_provider_status`
reports `available = false` (where `available` is derived as
`enabled && error_count < max_errors`), and the provider stays disabled
and unavailable under every further `_record_provider_error` and every
`unified_search` state update (which mutates provider state only through
`_record_provider_error`). -/
theorem provider_circuit_breaker (p : Provider) (n m : Nat) (b : Bool)
    (hInv : p.max_errors ≤ p.error_count → p.enabled = false)
    (hq : (record_provider_error^[n] p).max_errors ≤
          (record_provider_error^[n] p).error_count) :
    (record_provider_error^[n] p).enabled = false
    ∧ (get_provider_status (record_provider_error^[n] p)).available = false
    ∧ (record_provider_error^[m] (record_provider_error^[n] p)).enabled = false
    ∧ (get_provider_status
        (record_provider_error^[m] (record_provider_error^[n] p))).available = false
    ∧ (unified_search_step (record_provider_error^[n] p) b).enabled = false := by
  have hen : (record_provider_error^[n] p).enabled = false := by
    cases n with
    | zero => simpa using hInv (by simpa using hq)
    | succ k =>
      rw [Function.iterate_succ_apply'] at hq ⊢
      exact record_error_threshold_disables _ hq
  have hiter : (record_provider_error^[m] (record_provider_error^[n] p)).enabled = false :=
    iterate_record_keeps_disabled m _ hen
  refine ⟨hen, status_unavailable_of_disabled _ hen, hiter,
    status_unavailable_of_disabled _ hiter, ?_⟩
  cases b with
  | false => simpa [unified_search_step] using hen
  | true => simpa [unified_search_step] using record_error_keeps_disabled _ hen

/-- Witness for claim C2: the google provider state (`max_errors = 3`)
after three recorded errors is disabled and unavailable, and remains so
after two further errors and a unified-search step. -/
theorem provider_circuit_breaker_witness :
    (record_provider_error^[3] (⟨true, 1, 0, 3⟩ : Provider)).enabled = false
    ∧ (get_provider_status (record_provider_error^[3] (⟨true, 1, 0, 3⟩ : Provider))).available = false
    ∧ (record_provider_error^[2] (record_provider_error^[3] (⟨true, 1, 0, 3⟩ : Provider))).enabled = false
    ∧ (get_provider_status
        (record_provider_error^[2] (record_provider_error^[3] (⟨true, 1, 0, 3⟩ : Provider)))).available = false
    ∧ (unified_search_step (record_provider_error^[3] (⟨true, 1, 0, 3⟩ : Provider)) true).enabled = false :=
  provider_circuit_breaker ⟨true, 1, 0, 3⟩ 3 2 true (by decide) (by decide)

/-- Claim C3 (refuted: the code contradicts the claim): for every
provider state and HTTP outcome, the collection step of `unified_search`
leaves the provider state unchanged — `_search_google` swallows every
failure (exception or non-200 status) and returns `[]`, so
`future.result()` never raises and `_record_provider_error` is
unreachable from adapter-level failures.  In particular a status-500
response leaves `error_count` untouched instead of incrementing it. -/
theorem google_failure_not_recorded (p : Provider) (o : HttpOutcome) :
    (collect_google p o).1 = p
    ∧ (collect_google p o).1.error_count = p.error_count
    ∧ collect_google p (Except.ok ⟨500, []⟩) = (p, [])
    ∧ search_google (Except.ok ⟨500, []⟩) = []
    ∧ search_google (Except.error (lit "ConnectionError")) = [] :=
  ⟨rfl, rfl, rfl, rfl, rfl⟩

/-- Claim C7, counterexample to the universally quantified statement: a
URL classified to the PDF path (here `https://example.com/file.pdf`)
whose download fails is downloaded exactly once — not 3 times — before
the empty-content error return, so "every URL ... exactly 3 times" is
false on the code. -/
theorem extract_retry_counterexample :
    (extract_content (lit "https://example.com/file.pdf")
        canonical_extractors allFailEnv).download_attempts = 1
    ∧ ¬ ((extract_content (lit "https://example.com/file.pdf")
        canonical_extractors allFailEnv).download_attempts = 3)
    ∧ (extract_content (lit "https://example.com/file.pdf")
        canonical_extractors allFailEnv).content = []
    ∧ (extract_content (lit "https://example.com/file.pdf")
        canonical_extractors allFailEnv).meta.error ≠ none := by
  decide

/-- Claim C7 as amended: for every URL that resolves and is routed to the
HTML path (not classified as PDF), if the download fails on every
attempt, `extract_content` performs exactly 3 download attempts with
exponential backoff (sleeps of 2^0 = 1s and 2^1 = 2s between them), and
returns empty content together with a non-null metadata error entry — as
a total function, i.e. no exception reaches the caller. -/
theorem extract_content_html_retries (u r : Str) (available : List Str)
    (env : ExtractEnv) (e1 e2 e3 : Str)
    (hres : resolve_url u = some r)
    (hpdf : is_pdf_url r = false)
    (h1 : env.attempts.a1 = .error e1)
    (h2 : env.attempts.a2 = .error e2)
    (h3 : env.attempts.a3 = .error e3) :
    extract_content u available env =
      ⟨[], mkErrorMeta (lit "Erro no download: " ++ e3), 3, [1, 2]⟩
    ∧ (extract_content u available env).content = []
    ∧ (extract_content u available env).meta.error ≠ none
    ∧ (extract_content u available env).download_attempts = 3
    ∧ (extract_content u available env).sleeps = [1, 2] := by
  have hu : u.isEmpty = false := by
    cases u with
    | nil => simp [resolve_url] at hres
    | cons c cs => rfl
  have heq : extract_content u available env =
      ⟨[], mkErrorMeta (lit "Erro no download: " ++ e3), 3, [1, 2]⟩ := by
    simp [extract_content, extract_html_content, download_html, hu, hres, hpdf,
      h1, h2, h3]
  refine ⟨heq, by rw [heq], by rw [heq]; simp [mkErrorMeta], by rw [heq], by rw [heq]⟩

/-- Witness for the amended claim C7 at a concrete HTML URL whose three
download attempts all fail with HTTP 500. -/
theorem extract_content_html_retries_witness :
    extract_content (lit "https://example.com/page") canonical_extractors allFailEnv =
      ⟨[], mkErrorMeta (lit "Erro no download: " ++ lit "HTTP 500"), 3, [1, 2]⟩
    ∧ (extract_content (lit "https://example.com/page")
        canonical_extractors allFailEnv).meta.error ≠ none :=
  have h := extract_content_html_retries (lit "https://example.com/page")
    (lit "https://example.com/page") canonical_extractors allFailEnv
    (lit "HTTP 500") (lit "HTTP 500") (lit "HTTP 500")
    (by decide) (by decide) rfl rfl rfl
  ⟨h.1, h.2.2.1⟩

/-- Helper: the extraction loop behaves like the loop over the non-PDF
methods (the `pdf_` entries are skipped without being recorded). -/
theorem try_methods_filter_eq (o : MethodOracle) (ms : List Str) :
    ∀ tried, try_methods o ms tried =
      try_methods o (ms.filter fun m => !isPdfMethod m) tried := by
  induction ms with
  | nil => intro tried; rfl
  | cons m ms ih =>
    intro tried
    by_cases h : isPdfMethod m
    · simp [try_methods, List.filter_cons, h, ih]
    · simp only [try_methods, List.filter_cons, h, Bool.not_false, if_true,
        Bool.false_eq_true, if_false]
      cases ho : o m with
      | none => simp [ho, ih]
      | some s => cases hc : (!s.isEmpty && decide (100 < (pyStrip s).length)) <;>
          simp [ho, hc, ih]

/-- Helper: the first non-PDF method whose output beats the threshold
wins the extraction loop, with all previously tried methods recorded. -/
theorem try_methods_win (o : MethodOracle) (w s : Str) (post : List Str)
    (hw : o w = some s) (hwin : methodWins o w = true)
    (hwpdf : isPdfMethod w = false) :
    ∀ pre tried, (∀ m ∈ pre, isPdfMethod m = false) →
      (∀ m ∈ pre, methodWins o m = false) →
      try_methods o (pre ++ w :: post) tried = (some (s, w), tried ++ pre ++ [w]) := by
  intro pre
  induction pre with
  | nil =>
    intro tried _ _
    have hcond : (!s.isEmpty && decide (100 < (pyStrip s).length)) = true := by
      simpa [methodWins, hw] using hwin
    simp [try_methods, hwpdf, hw, hcond]
  | cons x pre ih =>
    intro tried hpdf hfail
    have hxpdf : isPdfMethod x = false := hpdf x (by simp)
    have hxfail : methodWins o x = false := hfail x (by simp)
    have hpdfrest : ∀ m ∈ pre, isPdfMethod m = false := fun m hm => hpdf m (by simp [hm])
    have hfailrest : ∀ m ∈ pre, methodWins o m = false := fun m hm => hfail m (by simp [hm])
    cases ho : o x with
    | none =>
      simp only [List.cons_append, try_methods, hxpdf, Bool.false_eq_true, if_false,
        ho, List.append_eq]
      rw [ih (tried ++ [x]) hpdfrest hfailrest]
      simp
    | some sx =>
      have hcond : (!sx.isEmpty && decide (100 < (pyStrip sx).length)) = false := by
        simpa [methodWins, ho] using hxfail
      simp only [List.cons_append, try_methods, hxpdf, Bool.false_eq_true, if_false,
        ho, hcond, List.append_eq]
      rw [ih (tried ++ [x]) hpdfrest hfailrest]
      simp

/-- Helper: when the extraction loop returns a winner, the winner's
output is nonempty with more than 100 stripped characters. -/
theorem try_methods_some_wins (o : MethodOracle) :
    ∀ ms tried s m tr, try_methods o ms tried = (some (s, m), tr) →
      o m = some s ∧ s.isEmpty = false ∧ 100 < (pyStrip s).length := by
  intro ms
  induction ms with
  | nil => intro tried s m tr h; simp [try_methods] at h
  | cons x ms ih =>
    intro tried s m tr h
    by_cases hx : isPdfMethod x
    · exact ih _ _ _ _ (by simpa [try_methods, hx] using h)
    · cases ho : o x with
      | none =>
        simp only [try_methods, hx, Bool.false_eq_true, if_false, ho] at h
        exact ih _ _ _ _ h
      | some sx =>
        simp only [try_methods, hx, Bool.false_eq_true, if_false, ho] at h
        by_cases hc : (!sx.isEmpty && decide (100 < (pyStrip sx).length)) = true
        · rw [if_pos hc] at h
          have h1 : some (sx, x) = some (s, m) := congrArg Prod.fst h
          have h2 : sx = s ∧ x = m := by simpa using h1
          obtain ⟨rfl, rfl⟩ := h2
          refine ⟨ho, ?_, ?_⟩
          · have := ((Bool.and_eq_true _ _).mp hc).1
            simpa using this
          · have := ((Bool.and_eq_true _ _).mp hc).2
            simpa using this
        · rw [if_neg hc] at h
          exact ih _ _ _ _ h

/-- Helper: a selector hit returned by the aggressive pass is one of the
page's selector texts and exceeds 100 characters. -/
theorem aggLoop_mem (l : List (Option Str)) (t : Str) (h : aggLoop l = some t) :
    some t ∈ l ∧ 100 < t.length := by
  induction l with
  | nil => simp [aggLoop] at h
  | cons x l ih =>
    cases x with
    | none =>
      simp only [aggLoop] at h
      rcases ih h with ⟨h1, h2⟩
      exact ⟨by simp [h1], h2⟩
    | some y =>
      by_cases hy : 100 < y.length
      · simp only [aggLoop, if_pos hy] at h
        obtain rfl : y = t := Option.some.injEq .. ▸ h
        exact ⟨by simp, hy⟩
      · simp only [aggLoop, if_neg hy] at h
        rcases ih h with ⟨h1, h2⟩
        exact ⟨by simp [h1], h2⟩

/-- Helper: stripping never lengthens a string. -/
theorem pyStrip_length_le (s : Str) : (pyStrip s).length ≤ s.length := by
  unfold pyStrip
  calc ((s.dropWhile isPyWs).reverse.dropWhile isPyWs).reverse.length
      = ((s.dropWhile isPyWs).reverse.dropWhile isPyWs).length := by
        rw [List.length_reverse]
    _ ≤ (s.dropWhile isPyWs).reverse.length :=
        ((s.dropWhile isPyWs).reverse.dropWhile_sublist isPyWs).length_le
    _ = (s.dropWhile isPyWs).length := by rw [List.length_reverse]
    _ ≤ s.length := (s.dropWhile_sublist isPyWs).length_le

/-- Helper: a string with more than 50 stripped characters is nonempty. -/
theorem nonempty_of_strip_gt (s : Str) (h : 50 < (pyStrip s).length) :
    s.isEmpty = false := by
  have hle := pyStrip_length_le s
  have hlen : 50 < s.length := lt_of_lt_of_le h hle
  cases s with
  | nil => simp at hlen
  | cons c cs => rfl

/-- Claim C6: for an HTML extraction in `extract_content` (resolved URL
not classified as PDF, page downloaded nonempty), the non-PDF methods of
`available_extractors` are tried in their fixed order: whenever that
order splits as `pre ++ w :: post` with every method of `pre` failing the
100-stripped-character threshold and `w` beating it, the returned content
is `w`'s (nonempty) output, `metadata.extractor_used = w`,
`metadata.extractors_tried = pre ++ [w]` (every attempted method in
order), and `metadata.content_length` is the content's length.
Furthermore, for a page with at least 100 characters of real body text —
modelled as: the page's whole stripped text has length ≥ 100 and any
selector container exceeding 100 characters has more than 50 stripped
characters — the returned content is nonempty and `extractor_used` is not
null. -/
theorem extract_content_extraction_chain (u r t : Str) (available : List Str)
    (env : ExtractEnv) (k : Nat) (sl : List Nat)
    (hres : resolve_url u = some r)
    (hpdf : is_pdf_url r = false)
    (hdl : download_html env.attempts = (Except.ok t, k, sl))
    (ht : t.isEmpty = false) :
    (∀ pre w post s,
        available.filter (fun m => !isPdfMethod m) = pre ++ w :: post →
        (∀ m ∈ pre, methodWins env.oracle m = false) →
        env.oracle w = some s →
        methodWins env.oracle w = true →
        (extract_content u available env).content = s
        ∧ (extract_content u available env).content ≠ []
        ∧ (extract_content u available env).meta.extractor_used = some w
        ∧ (extract_content u available env).meta.extractors_tried = some (pre ++ [w])
        ∧ (extract_content u available env).meta.content_length = some s.length)
    ∧ (100 ≤ (pyStrip env.page.fullText).length →
       (∀ ts, some ts ∈ env.page.selTexts → 100 < ts.length →
          50 < (pyStrip ts).length) →
       (extract_content u available env).content ≠ []
       ∧ (extract_content u available env).meta.extractor_used ≠ none) := by
  have hu : u.isEmpty = false := by
    cases u with
    | nil => simp [resolve_url] at hres
    | cons c cs => rfl
  have hstep : extract_content u available env = extract_html_content r available env := by
    simp [extract_content, hu, hres, hpdf]
  constructor
  · intro pre w post s hsplit hfails hw hwin
    have hmem_nonpdf : ∀ m ∈ pre ++ w :: post, isPdfMethod m = false := by
      intro m hm
      have hmf : m ∈ available.filter (fun m => !isPdfMethod m) := by
        rw [hsplit]; exact hm
      have := List.of_mem_filter hmf
      simpa using this
    have htm : try_methods env.oracle available [] = (some (s, w), pre ++ [w]) := by
      rw [try_methods_filter_eq, hsplit]
      have hwin2 := try_methods_win env.oracle w s post hw hwin
        (hmem_nonpdf w (by simp)) pre []
        (fun m hm => hmem_nonpdf m (by simp [hm])) hfails
      simpa using hwin2
    have hout : extract_content u available env =
        ⟨s, ⟨some r, some (pre ++ [w]), some w, some s.length, none⟩, k, sl⟩ := by
      rw [hstep]
      simp [extract_html_content, hdl, ht, htm]
    have hsne : s ≠ [] := by
      have hc : (!s.isEmpty && decide (100 < (pyStrip s).length)) = true := by
        simpa [methodWins, hw] using hwin
      have hse := ((Bool.and_eq_true _ _).mp hc).1
      intro hcon
      rw [hcon] at hse
      simp at hse
    rw [hout]
    exact ⟨rfl, hsne, rfl, rfl, rfl⟩
  · intro hfull hsel
    rw [hstep]
    rcases htm : try_methods env.oracle available [] with ⟨res, tr⟩
    cases res with
    | some pr =>
      obtain ⟨s, m⟩ := pr
      obtain ⟨ho, hse, hslen⟩ := try_methods_some_wins env.oracle available [] s m tr htm
      have hsne : s ≠ [] := by
        intro hcon; rw [hcon] at hse; simp at hse
      have hout : extract_html_content r available env =
          ⟨s, ⟨some r, some tr, some m, some s.length, none⟩, k, sl⟩ := by
        simp [extract_html_content, hdl, ht, htm]
      rw [hout]
      exact ⟨hsne, by simp⟩
    | none =>
      cases hag : aggLoop env.page.selTexts with
      | some ts =>
        obtain ⟨hmem, hlen⟩ := aggLoop_mem _ _ hag
        have h50 : 50 < (pyStrip ts).length := hsel ts hmem hlen
        have hne : ts.isEmpty = false := nonempty_of_strip_gt ts h50
        have hagv : aggressive_extraction env.page = ts := by
          simp [aggressive_extraction, hag]
        have hout : extract_html_content r available env =
            ⟨ts, ⟨some r, some tr, some (lit "aggressive"), none, none⟩, k, sl⟩ := by
          simp [extract_html_content, hdl, ht, htm, hagv, hne, h50]
        rw [hout]
        refine ⟨?_, by simp⟩
        show ts ≠ []
        intro hcon
        rw [hcon] at hne
        simp at hne
      | none =>
        have hagv : aggressive_extraction env.page = env.page.fullText := by
          simp [aggressive_extraction, hag]
        have h50 : 50 < (pyStrip env.page.fullText).length :=
          lt_of_lt_of_le (by norm_num) hfull
        have hne : env.page.fullText.isEmpty = false := nonempty_of_strip_gt _ h50
        have hout : extract_html_content r available env =
            ⟨env.page.fullText,
             ⟨some r, some tr, some (lit "aggressive"), none, none⟩, k, sl⟩ := by
          simp [extract_html_content, hdl, ht, htm, hagv, hne, h50]
        rw [hout]
        refine ⟨?_, by simp⟩
        show env.page.fullText ≠ []
        intro hcon
        rw [hcon] at hne
        simp at hne

set_option maxRecDepth 4000 in
/-- Witness for claim C6: in a concrete environment where trafilatura
returns a short string and readability returns a 123-character text, the
extraction returns readability's output, records both tried methods in
order, and the nonemptiness consequences hold. -/
theorem extract_content_extraction_chain_witness :
    (extract_content (lit "https://example.com/page") canonical_extractors c6env).content
      = c6long
    ∧ (extract_content (lit "https://example.com/page")
        canonical_extractors c6env).meta.extractor_used = some (lit "readability")
    ∧ (extract_content (lit "https://example.com/page")
        canonical_extractors c6env).meta.extractors_tried
      = some ([lit "trafilatura"] ++ [lit "readability"])
    ∧ (extract_content (lit "https://example.com/page")
        canonical_extractors c6env).content ≠ []
    ∧ (extract_content (lit "https://example.com/page")
        canonical_extractors c6env).meta.extractor_used ≠ none := by
  have h := extract_content_extraction_chain (lit "https://example.com/page")
    (lit "https://example.com/page") (lit "<html><body>page</body></html>")
    canonical_extractors c6env 1 [] (by decide) (by decide) rfl rfl
  have hA := h.1 [lit "trafilatura"] (lit "readability")
    [lit "newspaper", lit "beautifulsoup"] c6long (by decide) (by decide)
    (by decide) (by decide)
  have hB := h.2 (by decide) (by intro ts hts hl; simp [c6env] at hts)
  exact ⟨hA.1, hA.2.2.1, hA.2.2.2.1, hA.2.1, hB.2⟩

/-- Helper: deduplication returns a sublist of its input (the kept
entries appear in their original relative order). -/
theorem removeDupsAux_sublist : ∀ (seen : List Str) (l : List SearchResult),
    List.Sublist (removeDupsAux seen l) l := by
  intro seen l
  induction l generalizing seen with
  | nil => simp [removeDupsAux]
  | cons r rs ih =>
    rw [removeDupsAux]
    split
    · exact (ih _).cons₂ r
    · exact (ih _).cons r

/-- Helper: every kept entry has a nonempty URL not in the incoming
seen-set. -/
theorem removeDupsAux_mem : ∀ (seen : List Str) (l : List SearchResult),
    ∀ r ∈ removeDupsAux seen l,
      (getUrl r).isEmpty = false ∧ seen.contains (getUrl r) = false := by
  intro seen l
  induction l generalizing seen with
  | nil => intro r h; simp [removeDupsAux] at h
  | cons x rs ih =>
    intro r h
    rw [removeDupsAux] at h
    by_cases hc : (!(getUrl x).isEmpty && !seen.contains (getUrl x)) = true
    · rw [if_pos hc] at h
      obtain ⟨h1, h2⟩ := (Bool.and_eq_true _ _).mp hc
      rcases List.mem_cons.mp h with rfl | hmem
      · exact ⟨by simpa using h1, by simpa using h2⟩
      · obtain ⟨he, hcont⟩ := ih _ r hmem
        refine ⟨he, ?_⟩
        rw [List.contains_cons] at hcont
        exact (Bool.or_eq_false_iff.mp hcont).2
    · rw [if_neg hc] at h
      exact ih _ r h

/-- Helper: no two deduplicated entries share a URL. -/
theorem removeDupsAux_pairwise : ∀ (seen : List Str) (l : List SearchResult),
    (removeDupsAux seen l).Pairwise (fun a b => getUrl a ≠ getUrl b) := by
  intro seen l
  induction l generalizing seen with
  | nil => simp [removeDupsAux]
  | cons x rs ih =>
    rw [removeDupsAux]
    split
    · refine List.Pairwise.cons ?_ (ih _)
      intro b hb
      obtain ⟨_, hcont⟩ := removeDupsAux_mem _ _ b hb
      rw [List.contains_cons] at hcont
      have := (Bool.or_eq_false_iff.mp hcont).1
      intro hcon
      rw [hcon] at this
      simp at this
    · exact ih _

/-- Helper: for any nonempty URL not yet seen, exactly the first input
entry carrying it survives deduplication; a URL already seen is filtered
out completely. -/
theorem removeDupsAux_filter (u : Str) (hu : u ≠ []) :
    ∀ (l : List SearchResult) (seen : List Str),
      (removeDupsAux seen l).filter (fun r => getUrl r == u)
        = if seen.contains u then []
          else (l.filter (fun r => getUrl r == u)).take 1 := by
  intro l
  induction l with
  | nil => intro seen; rw [removeDupsAux]; split <;> simp
  | cons x rs ih =>
    intro seen
    rw [removeDupsAux]
    by_cases hc : (!(getUrl x).isEmpty && !seen.contains (getUrl x)) = true
    · rw [if_pos hc]
      obtain ⟨h1, h2⟩ := (Bool.and_eq_true _ _).mp hc
      have hnotseen : seen.contains (getUrl x) = false := by simpa using h2
      by_cases hxu : getUrl x = u
      · subst hxu
        rw [List.filter_cons_of_pos (by simp), ih (getUrl x :: seen)]
        rw [if_pos (by simp [List.contains_cons])]
        rw [hnotseen]
        rw [List.filter_cons_of_pos (by simp)]
        simp
      · rw [List.filter_cons_of_neg (by simp [hxu]), ih (getUrl x :: seen)]
        have hcc : (getUrl x :: seen).contains u = seen.contains u := by
          rw [List.contains_cons]
          have hne : (u == getUrl x) = false := by
            simp only [beq_eq_false_iff_ne, ne_eq]
            intro hcon
            exact hxu hcon.symm
          rw [hne, Bool.false_or]
        rw [hcc, List.filter_cons_of_neg (by simp [hxu])]
    · rw [if_neg hc, ih seen]
      have hcf : (!(getUrl x).isEmpty && !seen.contains (getUrl x)) = false :=
        Bool.eq_false_iff.mpr hc
      by_cases hxu : getUrl x = u
      · have hxe : (getUrl x).isEmpty = false := by
          rw [hxu]
          cases u with
          | nil => exact absurd rfl hu
          | cons c cs => rfl
        have hseen : seen.contains u = true := by
          rcases Bool.and_eq_false_iff.mp hcf with hl | hr
          · rw [hxe] at hl; simp at hl
          · rw [← hxu]; simpa using hr
        have hmem : u ∈ seen := by simpa using hseen
        simp [hmem]
      · rw [List.filter_cons_of_neg (by simp [hxu])]

/-- Helper: insertion produces a permutation. -/
theorem insertDesc_perm (x : PResult) : ∀ l : List PResult,
    List.Perm (insertDesc x l) (x :: l) := by
  intro l
  induction l with
  | nil => simp [insertDesc]
  | cons y ys ih =>
    rw [insertDesc]
    split
    · exact List.Perm.refl _
    · exact (ih.cons y).trans (List.Perm.swap x y ys)

/-- Helper: the stable sort is a permutation of its input. -/
theorem sortDesc_perm : ∀ l : List PResult, List.Perm (sortDesc l) l := by
  intro l
  induction l with
  | nil => simp [sortDesc]
  | cons x xs ih =>
    rw [sortDesc]
    exact (insertDesc_perm x (sortDesc xs)).trans (ih.cons x)

/-- Helper: insertion preserves descending sortedness by score. -/
theorem insertDesc_sorted (x : PResult) :
    ∀ l : List PResult,
      l.Sorted (fun a b => b.priority_score ≤ a.priority_score) →
      (insertDesc x l).Sorted (fun a b => b.priority_score ≤ a.priority_score) := by
  intro l
  induction l with
  | nil => intro _; simp [insertDesc]
  | cons y ys ih =>
    intro h
    rw [insertDesc]
    rcases List.pairwise_cons.mp h with ⟨hy, hys⟩
    split
    · rename_i hle
      refine List.Pairwise.cons ?_ h
      intro z hz
      rcases List.mem_cons.mp hz with rfl | hz2
      · exact hle
      · exact le_trans (hy z hz2) hle
    · rename_i hgt
      push_neg at hgt
      refine List.Pairwise.cons ?_ (ih hys)
      intro z hz
      rcases List.mem_cons.mp ((insertDesc_perm x ys).mem_iff.mp hz) with rfl | hz2
      · exact le_of_lt hgt
      · exact hy z hz2

/-- Helper: the sort output is sorted descending by score. -/
theorem sortDesc_sorted : ∀ l : List PResult,
    (sortDesc l).Sorted (fun a b => b.priority_score ≤ a.priority_score) := by
  intro l
  induction l with
  | nil => simp [sortDesc]
  | cons x xs ih => exact insertDesc_sorted x (sortDesc xs) ih

/-- Helper: insertion places the new element in front of the other
elements of its score class and disturbs no other score class. -/
theorem insertDesc_filter (x : PResult) (c : ℚ) :
    ∀ l : List PResult,
      (insertDesc x l).filter (fun e => decide (e.priority_score = c))
        = (if x.priority_score = c then [x] else [])
          ++ l.filter (fun e => decide (e.priority_score = c)) := by
  intro l
  induction l with
  | nil => rw [insertDesc]; split <;> simp_all
  | cons y ys ih =>
    rw [insertDesc]
    split
    · split <;> simp_all
    · rename_i hgt
      push_neg at hgt
      by_cases hyc : y.priority_score = c
      · have hxc : ¬ x.priority_score = c := by
          intro hxc
          rw [hxc, ← hyc] at hgt
          exact absurd rfl (ne_of_gt hgt)
        rw [List.filter_cons_of_pos (by simp [hyc]), ih,
          List.filter_cons_of_pos (by simp [hyc]), if_neg hxc]
        simp
      · rw [List.filter_cons_of_neg (by simp [hyc]), ih,
          List.filter_cons_of_neg (by simp [hyc])]

/-- Helper: sorting is stable — each score class of the output is exactly
the score class of the input, in input order. -/
theorem sortDesc_filter (c : ℚ) : ∀ l : List PResult,
    (sortDesc l).filter (fun e => decide (e.priority_score = c))
      = l.filter (fun e => decide (e.priority_score = c)) := by
  intro l
  induction l with
  | nil => rfl
  | cons x xs ih =>
    rw [sortDesc, insertDesc_filter, ih]
    by_cases hxc : x.priority_score = c
    · rw [if_pos hxc, List.filter_cons_of_pos (by simp [hxc])]
      rfl
    · rw [if_neg hxc, List.filter_cons_of_neg (by simp [hxc])]
      rfl

/-- Helper: deduplication ignores entries with missing or empty URLs —
they are discarded and influence nothing. -/
theorem removeDupsAux_filter_empty : ∀ (l : List SearchResult) (seen : List Str),
    removeDupsAux seen (l.filter fun r => !(getUrl r).isEmpty)
      = removeDupsAux seen l := by
  intro l
  induction l with
  | nil => intro seen; rfl
  | cons x rs ih =>
    intro seen
    by_cases hx : (getUrl x).isEmpty = true
    · rw [List.filter_cons_of_neg (by simp [hx]), ih]
      conv_rhs => rw [removeDupsAux]
      rw [if_neg (by simp [hx])]
    · rw [List.filter_cons_of_pos (by simp [hx]), removeDupsAux]
      conv_rhs => rw [removeDupsAux]
      by_cases hc : (!(getUrl x).isEmpty && !seen.contains (getUrl x)) = true
      · rw [if_pos hc, if_pos hc, ih]
      · rw [if_neg hc, if_neg hc, ih]

/-- Claim C1: the results list returned by `unified_search` contains no
two entries with the same URL; the deduplication step keeps, for every
nonempty URL, exactly the first merged entry carrying it, and preserves
the relative input order of the kept entries (its output is a sublist of
its input). -/
theorem unified_search_dedup (merged : List SearchResult) :
    (unified_results merged).Pairwise (fun a b => getUrl a.base ≠ getUrl b.base)
    ∧ List.Sublist (remove_duplicates merged) merged
    ∧ (∀ u : Str, u ≠ [] →
        (remove_duplicates merged).filter (fun r => getUrl r == u)
          = (merged.filter (fun r => getUrl r == u)).take 1) := by
  refine ⟨?_, removeDupsAux_sublist [] merged, ?_⟩
  · have hdd : (remove_duplicates merged).Pairwise (fun a b => getUrl a ≠ getUrl b) :=
      removeDupsAux_pairwise [] merged
    have hmap : ((remove_duplicates merged).map enrich).Pairwise
        (fun a b => getUrl a.base ≠ getUrl b.base) := by
      rw [List.pairwise_map]
      exact hdd
    have hperm : List.Perm (unified_results merged)
        ((remove_duplicates merged).map enrich) := sortDesc_perm _
    exact (List.Perm.pairwise_iff (fun h hc => h hc.symm) hperm).mpr hmap
  · intro u hu
    have h := removeDupsAux_filter u hu merged []
    simpa [remove_duplicates] using h

/-- Witness for claim C1: a concrete merged list with one duplicated URL
keeps the first occurrence only, and the final results have pairwise
distinct URLs. -/
theorem unified_search_dedup_witness :
    (unified_results [c1a, c1b, c1dup]).Pairwise
      (fun a b => getUrl a.base ≠ getUrl b.base)
    ∧ List.Sublist (remove_duplicates [c1a, c1b, c1dup]) [c1a, c1b, c1dup]
    ∧ (remove_duplicates [c1a, c1b, c1dup]).filter
        (fun r => getUrl r == lit "https://a.com/x")
      = ([c1a, c1b, c1dup].filter (fun r => getUrl r == lit "https://a.com/x")).take 1 := by
  have h := unified_search_dedup [c1a, c1b, c1dup]
  exact ⟨h.1, h.2.1, h.2.2 (lit "https://a.com/x") (by decide)⟩

/-- Claim C10: every result returned by `unified_search` has a nonempty
URL; merged entries with a missing or empty `url` are silently discarded
by the deduplication step (which behaves as if they were filtered away)
and are not counted in `statistics.total_results`. -/
theorem unified_search_url_nonempty (merged : List SearchResult) :
    (∀ e ∈ unified_results merged, getUrl e.base ≠ [])
    ∧ total_results merged = (remove_duplicates merged).length
    ∧ remove_duplicates merged
        = remove_duplicates (merged.filter fun r => !(getUrl r).isEmpty) := by
  refine ⟨?_, ?_, (removeDupsAux_filter_empty merged []).symm⟩
  · intro e he
    have hperm : List.Perm (unified_results merged)
        ((remove_duplicates merged).map enrich) := sortDesc_perm _
    have hmem : e ∈ (remove_duplicates merged).map enrich := hperm.mem_iff.mp he
    obtain ⟨r, hr, rfl⟩ := List.mem_map.mp hmem
    obtain ⟨hne, -⟩ := removeDupsAux_mem [] merged r hr
    show getUrl r ≠ []
    intro hcon
    rw [hcon] at hne
    simp at hne
  · show (sortDesc ((remove_duplicates merged).map enrich)).length = _
    rw [(sortDesc_perm _).length_eq, List.length_map]

/-- Witness for claim C10: with a merged list containing an empty-URL
entry, the entry is dropped, does not affect the count, and the kept
result's URL is nonempty. -/
theorem unified_search_url_nonempty_witness :
    getUrl (enrich c1a).base ≠ []
    ∧ total_results [c1a, c1empty] = (remove_duplicates [c1a, c1empty]).length
    ∧ remove_duplicates [c1a, c1empty]
        = remove_duplicates ([c1a, c1empty].filter fun r => !(getUrl r).isEmpty) := by
  have h := unified_search_url_nonempty [c1a, c1empty]
  have hmem : enrich c1a ∈ unified_results [c1a, c1empty] := by
    have hred : unified_results [c1a, c1empty] = [enrich c1a] := rfl
    rw [hred]
    exact List.mem_singleton.mpr rfl
  exact ⟨h.1 (enrich c1a) hmem, h.2.1, h.2.2⟩

/-- Claim C8: in the prioritisation step, a result whose host ends in
`.br` gets `is_brazilian = true`, one whose host matches the
preferred-domain allow-list gets `is_preferred = true`, and either kind
scores strictly above any result with neither property; the final list is
the stable descending sort of the enriched results by `priority_score`
(sorted descending, and each score class keeps its prior relative
order). -/
theorem prioritize_spec (l : List SearchResult) :
    (∀ r : SearchResult, endsWithStr (lit ".br") (domainOf (getUrl r)) = true →
        (enrich r).is_brazilian = true)
    ∧ (∀ r : SearchResult, matchesPreferred (domainOf (getUrl r)) = true →
        (enrich r).is_preferred = true)
    ∧ (∀ r s : SearchResult,
        (endsWithStr (lit ".br") (domainOf (getUrl r)) = true ∨
            matchesPreferred (domainOf (getUrl r)) = true) →
        (enrich s).is_brazilian = false →
        (enrich s).is_preferred = false →
        (enrich s).priority_score < (enrich r).priority_score)
    ∧ prioritize_brazilian_sources l = sortDesc (l.map enrich)
    ∧ (prioritize_brazilian_sources l).Sorted
        (fun a b => b.priority_score ≤ a.priority_score)
    ∧ (∀ c : ℚ,
        (prioritize_brazilian_sources l).filter (fun e => decide (e.priority_score = c))
          = (l.map enrich).filter (fun e => decide (e.priority_score = c))) := by
  refine ⟨?_, ?_, ?_, rfl, sortDesc_sorted _, fun c => sortDesc_filter c _⟩
  · intro r h
    simp [enrich, h]
  · intro r h
    simp [enrich, h]
  · intro r s hr hbraz hpref
    have hbraz2 : (endsWithStr (lit ".br") (domainOf (getUrl s))
        || occursIn (lit "brasil") (pyLower (domainOf (getUrl s)))
        || matchesPreferred (domainOf (getUrl s))) = false := hbraz
    have hpref2 : matchesPreferred (domainOf (getUrl s)) = false := hpref
    have hs : (enrich s).priority_score = 1 := by
      obtain ⟨hab, hc⟩ := Bool.or_eq_false_iff.mp hbraz2
      obtain ⟨ha, hb⟩ := Bool.or_eq_false_iff.mp hab
      simp [enrich, ha, hb, hc]
    have hr3 : (enrich r).priority_score = 4 ∨ (enrich r).priority_score = 3 := by
      by_cases hp : matchesPreferred (domainOf (getUrl r)) = true
      · left
        simp [enrich, hp]
        norm_num
      · right
        have hbr : endsWithStr (lit ".br") (domainOf (getUrl r)) = true := by
          rcases hr with h | h
          · exact h
          · exact absurd h hp
        have hp2 : matchesPreferred (domainOf (getUrl r)) = false := by
          simpa using hp
        simp [enrich, hp2, hbr]
        norm_num
    rw [hs]
    rcases hr3 with h4 | h3
    · rw [h4]; norm_num
    · rw [h3]; norm_num

/-- Witness for claim C8: a `.br` host is flagged Brazilian, a
`g1.globo.com` host is flagged preferred, both outscore a plain `.com`
host, and a concrete three-element list is returned sorted descending
with stable score classes. -/
theorem prioritize_spec_witness :
    (enrich c8brazil).is_brazilian = true
    ∧ (enrich c8pref).is_preferred = true
    ∧ (enrich c8plain).priority_score < (enrich c8brazil).priority_score
    ∧ (prioritize_brazilian_sources [c8plain, c8brazil, c8pref]).Sorted
        (fun a b => b.priority_score ≤ a.priority_score)
    ∧ (prioritize_brazilian_sources [c8plain, c8brazil, c8pref]).filter
        (fun e => decide (e.priority_score = 1))
      = ([c8plain, c8brazil, c8pref].map enrich).filter
        (fun e => decide (e.priority_score = 1)) := by
  have h := prioritize_spec [c8plain, c8brazil, c8pref]
  exact ⟨h.1 c8brazil (by decide), h.2.1 c8pref (by decide),
    h.2.2.1 c8brazil c8plain (Or.inl (by decide)) (by decide) (by decide),
    h.2.2.2.2.1, h.2.2.2.2.2 1⟩

/-- Helper: a nonempty list has `isEmpty = false`. -/
theorem isEmpty_false_of_ne (l : Str) (h : l ≠ []) : l.isEmpty = false := by
  cases l with
  | nil => exact absurd rfl h
  | cons c cs => rfl

/-- Claim C5, counterexample to the statement as written: the input
`"https://example.com "` (trailing space) parses with a scheme and a
host and is no redirect wrapper, yet `resolve_url` does not return the
input unchanged — it returns the stripped string. -/
theorem resolve_url_counterexample :
    (urlparseModel (lit "https://example.com ")).scheme ≠ []
    ∧ (urlparseModel (lit "https://example.com ")).netloc ≠ []
    ∧ occursIn bingMarker (lit "https://example.com ") = false
    ∧ resolve_url (lit "https://example.com ") = some (lit "https://example.com")
    ∧ resolve_url (lit "https://example.com ") ≠ some (lit "https://example.com ") := by
  decide

/-- Claim C5 as amended: `resolve_url` returns `none` on empty input;
for a non-redirect-wrapper input, it returns the input with surrounding
whitespace stripped when the stripped input parses with both a scheme
and a host, and `none` when the stripped input parses without a scheme
or without a host.  (The `not isinstance(url, str)` branch is outside
the typed embedding.) -/
theorem resolve_url_spec (u : Str)
    (hb : occursIn bingMarker (pyStrip u) = false) :
    resolve_url [] = none
    ∧ ((urlparseModel (pyStrip u)).scheme ≠ [] →
        (urlparseModel (pyStrip u)).netloc ≠ [] →
        resolve_url u = some (pyStrip u))
    ∧ (((urlparseModel (pyStrip u)).scheme = [] ∨
        (urlparseModel (pyStrip u)).netloc = []) →
        resolve_url u = none) := by
  refine ⟨rfl, ?_, ?_⟩
  · intro hs hn
    have hu : u.isEmpty = false := by
      cases u with
      | nil => exact absurd rfl hs
      | cons c cs => rfl
    simp [resolve_url, hu, hb, isEmpty_false_of_ne _ hs, isEmpty_false_of_ne _ hn]
  · intro hor
    cases u with
    | nil => rfl
    | cons c cs =>
      have hcond : ((urlparseModel (pyStrip (c :: cs))).scheme.isEmpty
          || (urlparseModel (pyStrip (c :: cs))).netloc.isEmpty) = true := by
        rcases hor with h | h <;> simp [h]
      simp [resolve_url, hb, hcond]

/-- Witness for the amended claim C5 at a valid URL and at a string with
no scheme. -/
theorem resolve_url_spec_witness :
    resolve_url (lit "https://example.com/a") = some (pyStrip (lit "https://example.com/a"))
    ∧ resolve_url (lit "example") = none :=
  have h1 := resolve_url_spec (lit "https://example.com/a") (by decide)
  have h2 := resolve_url_spec (lit "example") (by decide)
  ⟨h1.2.1 (by decide) (by decide), h2.2.2 (by decide)⟩

/-- Claim C9: every Bing redirect-wrapper URL whose embedded `u`
query-parameter target is the URL-encoding of `https://example.com/page`
resolves to exactly `https://example.com/page` (the regex extracts the
encoded target, it is percent-decoded, the base64 branch does not fire,
and the scheme is already explicit). -/
theorem resolve_bing_target (u : Str)
    (h0 : u ≠ [])
    (h1 : occursIn bingMarker (pyStrip u) = true)
    (h2 : bingFindTarget (pyStrip u)
      = some (lit "https%3A%2F%2Fexample.com%2Fpage")) :
    resolve_url u = some (lit "https://example.com/page") := by
  have hu : u.isEmpty = false := isEmpty_false_of_ne u h0
  have hstep : resolve_url u = resolve_bing_redirect (pyStrip u) := by
    simp [resolve_url, hu, h1]
  rw [hstep]
  rw [resolve_bing_redirect, h2]
  decide

/-- Witness for claim C9: a concrete Bing click-through URL embedding
the encoded target. -/
theorem resolve_bing_target_witness :
    resolve_url
      (lit "https://www.bing.com/ck/a?!&&p=abc&u=https%3A%2F%2Fexample.com%2Fpage&ntb=1")
      = some (lit "https://example.com/page") :=
  resolve_bing_target
    (lit "https://www.bing.com/ck/a?!&&p=abc&u=https%3A%2F%2Fexample.com%2Fpage&ntb=1")
    (by decide) (by decide) (by decide)

/-- Claim C4, counterexample: for `u = "https://example.com/page?utm_source=x"`,
`resolve_url u = some u`, but cleaning strips the non-allow-listed
`utm_source` parameter, so `resolve_url (clean_url (resolve_url u))`
yields `https://example.com/page`, which differs from `resolve_url u` —
the claimed round-trip equation fails. -/
theorem clean_url_round_trip_counterexample :
    resolve_url (lit "https://example.com/page?utm_source=x")
      = some (lit "https://example.com/page?utm_source=x")
    ∧ clean_url (lit "https://example.com/page?utm_source=x")
      = lit "https://example.com/page"
    ∧ resolve_url (clean_url (lit "https://example.com/page?utm_source=x"))
      = some (lit "https://example.com/page")
    ∧ resolve_url (clean_url (lit "https://example.com/page?utm_source=x"))
      ≠ resolve_url (lit "https://example.com/page?utm_source=x") := by
  decide

/-- Helper: `Char.ofNat` of a valid codepoint round-trips through
`toNat`. -/
theorem char_toNat_ofNat_valid (n : Nat) (h : n.isValidChar) :
    (Char.ofNat n).toNat = n := by
  rw [Char.ofNat, dif_pos h]
  rfl

/-- Helper: `toNat` determines the character. -/
theorem char_toNat_inj (c d : Char) (h : c.toNat = d.toNat) : c = d := by
  have h2 := congrArg Char.ofNat h
  rwa [Char.ofNat_toNat, Char.ofNat_toNat] at h2

/-- Helper: the codepoint arithmetic of `lowerChar`. -/
theorem lowerChar_toNat (c : Char) :
    (lowerChar c).toNat
      = if 65 ≤ c.toNat ∧ c.toNat ≤ 90 then c.toNat + 32 else c.toNat := by
  by_cases hc : 65 ≤ c.toNat ∧ c.toNat ≤ 90
  · rw [lowerChar, if_pos hc, if_pos hc]
    exact char_toNat_ofNat_valid _ (Or.inl (by omega))
  · rw [lowerChar, if_neg hc, if_neg hc]

/-- Helper: lower-casing cannot produce a colon from a non-colon. -/
theorem lowerChar_eq_colon (c : Char) (h : lowerChar c = ':') : c = ':' := by
  have ht := congrArg Char.toNat h
  rw [lowerChar_toNat] at ht
  have hcolon : (':' : Char).toNat = 58 := rfl
  rw [hcolon] at ht
  split at ht
  · omega
  · exact char_toNat_inj _ _ (by rw [ht]; rfl)

/-- Helper: lower-casing is idempotent. -/
theorem lowerChar_idem (c : Char) : lowerChar (lowerChar c) = lowerChar c := by
  by_cases hc : 65 ≤ c.toNat ∧ c.toNat ≤ 90
  · have ht : (lowerChar c).toNat = c.toNat + 32 := by rw [lowerChar_toNat, if_pos hc]
    rw [lowerChar, if_neg (by omega : ¬(65 ≤ (lowerChar c).toNat ∧ (lowerChar c).toNat ≤ 90))]
  · have ht : lowerChar c = c := by rw [lowerChar, if_neg hc]
    rw [ht, ht]

/-- Helper: lower-casing preserves ASCII letters. -/
theorem isAsciiAlpha_lowerChar (c : Char) (h : isAsciiAlpha c = true) :
    isAsciiAlpha (lowerChar c) = true := by
  by_cases hc : 65 ≤ c.toNat ∧ c.toNat ≤ 90
  · have ht : (lowerChar c).toNat = c.toNat + 32 := by rw [lowerChar_toNat, if_pos hc]
    simp only [isAsciiAlpha, ht]
    simp only [Bool.or_eq_true, decide_eq_true_eq]
    omega
  · have ht : lowerChar c = c := by rw [lowerChar, if_neg hc]
    rw [ht]
    exact h

/-- Helper: lower-casing preserves scheme characters. -/
theorem schemeChar_lowerChar (c : Char) (h : schemeChar c = true) :
    schemeChar (lowerChar c) = true := by
  by_cases hc : 65 ≤ c.toNat ∧ c.toNat ≤ 90
  · have ht : (lowerChar c).toNat = c.toNat + 32 := by rw [lowerChar_toNat, if_pos hc]
    simp only [schemeChar, isAsciiAlphaNum, isAsciiAlpha]
    simp only [Bool.or_eq_true, decide_eq_true_eq, ht]
    left; left; left
    omega
  · have ht : lowerChar c = c := by rw [lowerChar, if_neg hc]
    rw [ht]
    exact h

/-- Helper: characters of the first component of `splitFirstChar` come
from the input and differ from the separator. -/
theorem splitFirstChar_fst_props (sep : Char) : ∀ l : Str,
    ∀ c ∈ (splitFirstChar sep l).1, c ∈ l ∧ c ≠ sep := by
  intro l
  induction l with
  | nil => intro c h; simp [splitFirstChar] at h
  | cons x xs ih =>
    intro c h
    rw [splitFirstChar] at h
    by_cases hx : (x == sep) = true
    · rw [if_pos hx] at h
      simp at h
    · rw [if_neg hx] at h
      rcases List.mem_cons.mp h with rfl | h2
      · exact ⟨by simp, by simpa using hx⟩
      · obtain ⟨hmem, hne⟩ := ih c h2
        exact ⟨by simp [hmem], hne⟩

/-- Helper: without the separator, `splitFirstChar` returns the whole
input and no remainder. -/
theorem splitFirstChar_none (sep : Char) : ∀ l : Str,
    (∀ c ∈ l, c ≠ sep) → splitFirstChar sep l = (l, none) := by
  intro l
  induction l with
  | nil => intro _; rfl
  | cons x xs ih =>
    intro hl
    rw [splitFirstChar]
    rw [if_neg (by simpa using hl x (by simp))]
    rw [ih (fun c hc => hl c (by simp [hc]))]

/-- Helper: `splitFirstChar` splits exactly at the first separator. -/
theorem splitFirstChar_app (sep : Char) : ∀ xs ys : Str,
    (∀ c ∈ xs, c ≠ sep) → splitFirstChar sep (xs ++ sep :: ys) = (xs, some ys) := by
  intro xs
  induction xs with
  | nil =>
    intro ys _
    rw [List.nil_append, splitFirstChar, if_pos (by simp)]
  | cons x xs ih =>
    intro ys hl
    rw [List.cons_append, splitFirstChar]
    rw [if_neg (by simpa using hl x (by simp))]
    rw [ih ys (fun c hc => hl c (by simp [hc]))]

/-- Helper: a nonempty first component starts where the input starts. -/
theorem splitFirstChar_fst_head (sep : Char) : ∀ (l : Str) (c : Char) (cs : Str),
    (splitFirstChar sep l).1 = c :: cs → ∃ t, l = c :: t := by
  intro l
  induction l with
  | nil => intro c cs h; simp [splitFirstChar] at h
  | cons x xs _ =>
    intro c cs h
    rw [splitFirstChar] at h
    by_cases hx : (x == sep) = true
    · rw [if_pos hx] at h
      simp at h
    · rw [if_neg hx] at h
      have hx2 : x = c := (List.cons.injEq .. ▸ h).1
      exact ⟨xs, by rw [hx2]⟩

/-- Helper: `takeWhile` passes over an all-true block. -/
theorem takeWhile_append_all (p : Char → Bool) : ∀ xs ys : Str,
    (∀ c ∈ xs, p c = true) → (xs ++ ys).takeWhile p = xs ++ ys.takeWhile p := by
  intro xs
  induction xs with
  | nil => intro ys _; simp
  | cons x xs ih =>
    intro ys hl
    rw [List.cons_append, List.takeWhile_cons, if_pos (hl x (by simp)),
      ih ys (fun c hc => hl c (by simp [hc])), List.cons_append]

/-- Helper: `dropWhile` consumes an all-true block. -/
theorem dropWhile_append_all (p : Char → Bool) : ∀ xs ys : Str,
    (∀ c ∈ xs, p c = true) → (xs ++ ys).dropWhile p = ys.dropWhile p := by
  intro xs
  induction xs with
  | nil => intro ys _; simp
  | cons x xs ih =>
    intro ys hl
    rw [List.cons_append, List.dropWhile_cons, if_pos (hl x (by simp)),
      ih ys (fun c hc => hl c (by simp [hc]))]

/-- Helper: `takeWhile` of a list whose head (if any) fails is empty. -/
theorem takeWhile_nil_of_head (p : Char → Bool) (l : Str)
    (h : ∀ c cs, l = c :: cs → p c = false) : l.takeWhile p = [] := by
  cases l with
  | nil => rfl
  | cons c cs => rw [List.takeWhile_cons, if_neg (by simp [h c cs rfl])]

/-- Helper: `dropWhile` of a list whose head (if any) fails is the list
itself. -/
theorem dropWhile_self_of_head (p : Char → Bool) (l : Str)
    (h : ∀ c cs, l = c :: cs → p c = false) : l.dropWhile p = l := by
  cases l with
  | nil => rfl
  | cons c cs => rw [List.dropWhile_cons, if_neg (by simp [h c cs rfl])]

/-- Helper: the head surviving `dropWhile` fails the predicate. -/
theorem dropWhile_head_false (p : Char → Bool) : ∀ (l : Str) (c : Char) (cs : Str),
    l.dropWhile p = c :: cs → p c = false := by
  intro l
  induction l with
  | nil => intro c cs h; simp at h
  | cons x xs ih =>
    intro c cs h
    rw [List.dropWhile_cons] at h
    split at h
    · exact ih c cs h
    · rename_i hpx
      have hx2 : x = c := (List.cons.injEq .. ▸ h).1
      rw [← hx2]
      simpa using hpx

/-- Helper: `dropWhile` is idempotent. -/
theorem dropWhile_fixed (p : Char → Bool) (l : Str) :
    (l.dropWhile p).dropWhile p = l.dropWhile p := by
  apply dropWhile_self_of_head
  intro c cs h
  exact dropWhile_head_false p l c cs h

/-- Helper: Python `strip` is idempotent. -/
theorem pyStrip_idem (s : Str) : pyStrip (pyStrip s) = pyStrip s := by
  have hA : (s.dropWhile isPyWs).dropWhile isPyWs = s.dropWhile isPyWs :=
    dropWhile_fixed isPyWs s
  have hpre : List.IsPrefix (pyStrip s) (s.dropWhile isPyWs) := by
    have hsuf : List.IsSuffix ((s.dropWhile isPyWs).reverse.dropWhile isPyWs)
        (s.dropWhile isPyWs).reverse := List.dropWhile_suffix _
    have := List.reverse_prefix.mpr hsuf
    rwa [List.reverse_reverse] at this
  have ht : (pyStrip s).dropWhile isPyWs = pyStrip s := by
    obtain ⟨r, hr⟩ := hpre
    cases hps : pyStrip s with
    | nil => rfl
    | cons c cs =>
      apply dropWhile_self_of_head
      intro c2 cs2 h2
      have hcc : c = c2 := (List.cons.injEq .. ▸ h2).1
      have hAc : s.dropWhile isPyWs = c :: (cs ++ r) := by
        rw [← hr, hps, List.cons_append]
      have hhead := dropWhile_head_false isPyWs s c (cs ++ r) hAc
      rwa [hcc] at hhead
  show (((pyStrip s).dropWhile isPyWs).reverse.dropWhile isPyWs).reverse = pyStrip s
  rw [ht]
  show ((((s.dropWhile isPyWs).reverse.dropWhile
      isPyWs).reverse).reverse.dropWhile isPyWs).reverse = pyStrip s
  rw [List.reverse_reverse, dropWhile_fixed]
  rfl

/-- Helper: a valid, lower-case-stable scheme followed by `:` splits off
exactly. -/
theorem splitScheme_exact (rest2 : Str) (c : Char) (cs : Str)
    (ha : isAsciiAlpha c = true) (hall : (c :: cs).all schemeChar = true)
    (hlower : pyLower (c :: cs) = c :: cs) (hnc : ∀ x ∈ c :: cs, x ≠ ':') :
    splitScheme ((c :: cs) ++ ':' :: rest2) = some (c :: cs, rest2) := by
  have hsp := splitFirstChar_app ':' (c :: cs) rest2 hnc
  simp only [splitScheme, hsp]
  rw [if_pos (by rw [Bool.and_eq_true]; exact ⟨ha, hall⟩)]
  rw [hlower]

/-- Helper: the scheme produced by a successful `splitScheme` splits off
again from any rebuilt URL (it is nonempty, valid, lower-case-stable and
colon-free). -/
theorem splitScheme_build (r s rest : Str) (h : splitScheme r = some (s, rest)) :
    s ≠ [] ∧ ∀ rest2, splitScheme (s ++ ':' :: rest2) = some (s, rest2) := by
  rcases hsp : splitFirstChar ':' r with ⟨pre, o⟩
  rw [splitScheme, hsp] at h
  cases o with
  | none => simp at h
  | some rest1 =>
    cases pre with
    | nil => simp at h
    | cons c pcs =>
      simp only [] at h
      by_cases hv : (isAsciiAlpha c && (c :: pcs).all schemeChar) = true
      · rw [if_pos hv] at h
        obtain ⟨hseq, -⟩ : pyLower (c :: pcs) = s ∧ rest1 = rest := by simpa using h
        obtain ⟨ha, hall⟩ := Bool.and_eq_true .. |>.mp hv
        have hnocolon : ∀ x ∈ c :: pcs, x ≠ ':' := by
          intro x hx
          refine (splitFirstChar_fst_props ':' r x ?_).2
          rw [hsp]
          exact hx
        have hshape : pyLower (c :: pcs) = lowerChar c :: pyLower pcs := rfl
        have ha2 : isAsciiAlpha (lowerChar c) = true := isAsciiAlpha_lowerChar c ha
        have hall2 : (lowerChar c :: pyLower pcs).all schemeChar = true := by
          rw [← hshape, List.all_eq_true]
          intro x hx
          obtain ⟨y, hy, rfl⟩ := List.mem_map.mp hx
          exact schemeChar_lowerChar y (List.all_eq_true.mp hall y hy)
        have hlower2 : pyLower (lowerChar c :: pyLower pcs) = lowerChar c :: pyLower pcs := by
          rw [← hshape]
          show List.map lowerChar (List.map lowerChar (c :: pcs)) = _
          rw [List.map_map]
          exact List.map_congr_left fun a _ => lowerChar_idem a
        have hnc2 : ∀ x ∈ lowerChar c :: pyLower pcs, x ≠ ':' := by
          rw [← hshape]
          intro x hx
          obtain ⟨y, hy, rfl⟩ := List.mem_map.mp hx
          intro hcon
          exact hnocolon y hy (lowerChar_eq_colon y hcon)
        subst hseq
        refine ⟨by simp [hshape], ?_⟩
        intro rest2
        rw [hshape]
        exact splitScheme_exact rest2 (lowerChar c) (pyLower pcs) ha2 hall2 hlower2 hnc2
      · rw [if_neg hv] at h
        simp at h

/-- Helper: hex digits are not `#`. -/
theorem hexDigit_ne_hash (n : Nat) (h : n < 16) : hexDigit n ≠ '#' := by
  intro hcon
  have ht := congrArg Char.toNat hcon
  have hh : ('#' : Char).toNat = 35 := rfl
  rw [hexDigit, hh] at ht
  split at ht
  · rw [char_toNat_ofNat_valid _ (Or.inl (by omega))] at ht
    omega
  · rw [char_toNat_ofNat_valid _ (Or.inl (by omega))] at ht
    omega

/-- Helper: `quote_plus` never emits `#`. -/
theorem quotePlus_no_hash (s : Str) : ∀ c ∈ quotePlus s, c ≠ '#' := by
  intro c hc
  obtain ⟨x, -, hcx⟩ := List.mem_flatMap.mp hc
  rw [quotePlusChar] at hcx
  by_cases hws : (x == ' ') = true
  · rw [if_pos hws] at hcx
    have hcp : c = '+' := by simpa using hcx
    rw [hcp]
    intro hcon
    exact absurd hcon (by decide)
  · rw [if_neg hws] at hcx
    by_cases hsafe : quoteSafe x = true
    · rw [if_pos hsafe] at hcx
      have hcx2 : c = x := by simpa using hcx
      subst hcx2
      intro hcon
      rw [hcon] at hsafe
      exact absurd hsafe (by decide)
    · rw [if_neg hsafe] at hcx
      simp only [List.mem_cons, List.not_mem_nil, or_false] at hcx
      rcases hcx with rfl | rfl | rfl
      · intro hcon; exact absurd hcon (by decide)
      · exact hexDigit_ne_hash _ (Nat.div_lt_of_lt_mul (by omega))
      · exact hexDigit_ne_hash _ (Nat.mod_lt _ (by omega))

/-- Helper: membership in a `'&'`-join. -/
theorem joinAmp_mem : ∀ (parts : List Str) (c : Char), c ∈ joinAmp parts →
    c = '&' ∨ ∃ part ∈ parts, c ∈ part := by
  intro parts
  induction parts with
  | nil => intro c h; simp [joinAmp] at h
  | cons x xs ih =>
    intro c h
    cases xs with
    | nil =>
      exact Or.inr ⟨x, by simp, by simpa [joinAmp] using h⟩
    | cons y ys =>
      have hj : joinAmp (x :: y :: ys) = x ++ '&' :: joinAmp (y :: ys) := rfl
      rw [hj] at h
      rcases List.mem_append.mp h with h1 | h1
      · exact Or.inr ⟨x, by simp, h1⟩
      · rcases List.mem_cons.mp h1 with rfl | h2
        · exact Or.inl rfl
        · rcases ih c h2 with h3 | ⟨part, hp, hcp⟩
          · exact Or.inl h3
          · exact Or.inr ⟨part, by simp [hp], hcp⟩

/-- Helper: `urlencode` output never contains `#`. -/
theorem urlencode_no_hash (ps : List (Str × List Str)) :
    ∀ c ∈ urlencodeModel ps, c ≠ '#' := by
  intro c hc
  rcases joinAmp_mem _ c hc with rfl | ⟨part, hp, hcp⟩
  · intro hcon; simp at hcon
  · obtain ⟨kv, -, hpart⟩ := List.mem_flatMap.mp hp
    obtain ⟨v, -, rfl⟩ := List.mem_map.mp hpart
    rcases List.mem_append.mp hcp with h1 | h1
    · exact quotePlus_no_hash _ c h1
    · rcases List.mem_cons.mp h1 with rfl | h2
      · intro hcon; simp at hcon
      · exact quotePlus_no_hash _ c h2

/-- Helper: parsing a URL rebuilt by `buildUrl` from well-formed
components recovers exactly those components. -/
theorem urlparse_build (s n pa : Str) (qopt : Option Str)
    (hscheme : ∀ rest2, splitScheme (s ++ ':' :: rest2) = some (s, rest2))
    (hn_all : ∀ c ∈ n, netlocChar c = true)
    (hpa_head : ∀ c cs, pa = c :: cs → netlocChar c = false)
    (hpa_hash : ∀ c ∈ pa, c ≠ '#')
    (hpa_q : ∀ c ∈ pa, c ≠ '?')
    (hq_hash : ∀ qs, qopt = some qs → ∀ c ∈ qs, c ≠ '#') :
    urlparseModel (buildUrl s n pa qopt) = ⟨s, n, pa, qopt.getD []⟩ := by
  have hqpart : ∀ c ∈ (match qopt with | some qs => '?' :: qs | none => ([] : Str)),
      c ≠ '#' := by
    cases qopt with
    | none => intro c hc; simp at hc
    | some qs =>
      intro c hc
      rcases List.mem_cons.mp hc with rfl | hc2
      · intro hcon; exact absurd hcon (by decide)
      · exact hq_hash qs rfl c hc2
  have hb : buildUrl s n pa qopt
      = s ++ ':' :: '/' :: '/' ::
        (n ++ (pa ++ (match qopt with | some qs => '?' :: qs | none => []))) := by
    show s ++ lit "://" ++ n ++ pa ++ _ = _
    rw [show lit "://" = [':', '/', '/'] from rfl]
    simp [List.append_assoc]
  rw [hb]
  have hsw : startsWith (lit "//")
      ('/' :: '/' :: (n ++ (pa ++ (match qopt with | some qs => '?' :: qs | none => []))))
      = true := by
    rw [show lit "//" = ['/', '/'] from rfl]
    simp [startsWith]
  have htake : (n ++ (pa ++ (match qopt with | some qs => '?' :: qs | none => []))).takeWhile
      netlocChar = n := by
    rw [takeWhile_append_all netlocChar n _ hn_all]
    rw [takeWhile_nil_of_head, List.append_nil]
    intro c cs hcs
    cases pa with
    | cons p ps =>
      rw [List.cons_append] at hcs
      have hpc : p = c := (List.cons.injEq .. ▸ hcs).1
      rw [← hpc]
      exact hpa_head p ps rfl
    | nil =>
      rw [List.nil_append] at hcs
      cases qopt with
      | none => simp at hcs
      | some qs =>
        have hqc : '?' = c := (List.cons.injEq .. ▸ hcs).1
        rw [← hqc]
        decide
  have hdrop : (n ++ (pa ++ (match qopt with | some qs => '?' :: qs | none => []))).dropWhile
      netlocChar = pa ++ (match qopt with | some qs => '?' :: qs | none => []) := by
    rw [dropWhile_append_all netlocChar n _ hn_all]
    apply dropWhile_self_of_head
    intro c cs hcs
    cases pa with
    | cons p ps =>
      rw [List.cons_append] at hcs
      have hpc : p = c := (List.cons.injEq .. ▸ hcs).1
      rw [← hpc]
      exact hpa_head p ps rfl
    | nil =>
      rw [List.nil_append] at hcs
      cases qopt with
      | none => simp at hcs
      | some qs =>
        have hqc : '?' = c := (List.cons.injEq .. ▸ hcs).1
        rw [← hqc]
        decide
  have hhash : splitFirstChar '#'
      (pa ++ (match qopt with | some qs => '?' :: qs | none => []))
      = (pa ++ (match qopt with | some qs => '?' :: qs | none => []), none) := by
    apply splitFirstChar_none
    intro c hc
    rcases List.mem_append.mp hc with h1 | h1
    · exact hpa_hash c h1
    · exact hqpart c h1
  simp only [urlparseModel, hscheme, parseAfterScheme, hsw, if_true, List.drop_succ_cons,
    List.drop_zero, htake, hdrop, hhash]
  cases qopt with
  | none =>
    simp only [List.append_nil]
    rw [splitFirstChar_none '?' pa hpa_q]
  | some qs =>
    rw [splitFirstChar_app '?' pa qs hpa_q]

/-- Claim C4 as amended: for a URL `u` that resolves successfully and is
not a Bing redirect wrapper, and whose cleaned form neither contains the
Bing redirect marker nor carries surrounding whitespace,
`resolve_url (clean_url (resolve_url u)) = clean_url (resolve_url u)`:
cleaning yields a URL that resolves to itself.  It is not in general
equal to `resolve_url u`, because cleaning strips every query parameter
outside the allow-list (see the counterexample). -/
theorem clean_url_round_trip (u : Str)
    (hb : occursIn bingMarker (pyStrip u) = false)
    (hr : resolve_url u ≠ none)
    (hb2 : occursIn bingMarker (clean_url (pyStrip u)) = false)
    (hw : pyStrip (clean_url (pyStrip u)) = clean_url (pyStrip u)) :
    resolve_url u = some (pyStrip u)
    ∧ resolve_url (clean_url (pyStrip u)) = some (clean_url (pyStrip u)) := by
  have hu : u.isEmpty = false := by
    cases u with
    | nil => exact absurd rfl hr
    | cons c cs => rfl
  have hc2 : ((urlparseModel (pyStrip u)).scheme.isEmpty
      || (urlparseModel (pyStrip u)).netloc.isEmpty) = false := by
    by_cases hcond : ((urlparseModel (pyStrip u)).scheme.isEmpty
        || (urlparseModel (pyStrip u)).netloc.isEmpty) = true
    · exfalso
      apply hr
      simp [resolve_url, hu, hb, hcond]
    · exact Bool.eq_false_iff.mpr hcond
  obtain ⟨hsE, hnE⟩ := Bool.or_eq_false_iff.mp hc2
  have hres_u : resolve_url u = some (pyStrip u) := by
    simp [resolve_url, hu, hb, hc2]
  have hrE : (pyStrip u).isEmpty = false := by
    cases hrc : pyStrip u with
    | nil =>
      rw [hrc] at hnE
      exact absurd hnE (by decide)
    | cons c cs => rfl
  have hres_r : resolve_url (pyStrip u) = some (pyStrip u) := by
    simp [resolve_url, hrE, pyStrip_idem, hb, hc2]
  refine ⟨hres_u, ?_⟩
  by_cases hq : (urlparseModel (pyStrip u)).query.isEmpty = true
  · have hclean : clean_url (pyStrip u) = pyStrip u := by
      simp [clean_url, hrE, hres_r, hq]
    rw [hclean]
    exact hres_r
  · obtain ⟨s0, rest0, hss⟩ : ∃ s0 rest0, splitScheme (pyStrip u) = some (s0, rest0) := by
      cases hss : splitScheme (pyStrip u) with
      | none =>
        exfalso
        have hnil : (urlparseModel (pyStrip u)).scheme = [] := by
          by_cases hsw : startsWith (lit "//") (pyStrip u) = true <;>
            simp [urlparseModel, hss, parseAfterScheme, hsw]
        rw [hnil] at hsE
        simp at hsE
      | some pair =>
        obtain ⟨a, b⟩ := pair
        exact ⟨a, b, rfl⟩
    have hps : urlparseModel (pyStrip u) = parseAfterScheme s0 rest0 := by
      simp [urlparseModel, hss]
    obtain ⟨hs0ne, hscheme⟩ := splitScheme_build (pyStrip u) s0 rest0 hss
    by_cases hsw : startsWith (lit "//") rest0 = true
    · have hPs : (urlparseModel (pyStrip u)).scheme = s0 := by
        rw [hps]
        simp [parseAfterScheme, hsw]
      have hPn : (urlparseModel (pyStrip u)).netloc
          = (rest0.drop 2).takeWhile netlocChar := by
        rw [hps]
        simp [parseAfterScheme, hsw]
      have hPp : (urlparseModel (pyStrip u)).path
          = (splitFirstChar '?'
              ((splitFirstChar '#' ((rest0.drop 2).dropWhile netlocChar)).1)).1 := by
        rw [hps]
        simp [parseAfterScheme, hsw]
      have hn_all : ∀ c ∈ (urlparseModel (pyStrip u)).netloc, netlocChar c = true := by
        rw [hPn]
        intro c hc
        exact List.mem_takeWhile_imp hc
      have hpa_head : ∀ c cs, (urlparseModel (pyStrip u)).path = c :: cs →
          netlocChar c = false := by
        rw [hPp]
        intro c cs hc
        obtain ⟨t1, ht1⟩ := splitFirstChar_fst_head '?' _ c _ hc
        obtain ⟨t2, ht2⟩ := splitFirstChar_fst_head '#' _ c _ (by rw [ht1])
        exact dropWhile_head_false netlocChar (rest0.drop 2) c t2 ht2
      have hpa_hash : ∀ c ∈ (urlparseModel (pyStrip u)).path, c ≠ '#' := by
        rw [hPp]
        intro c hc
        obtain ⟨hmem1, -⟩ := splitFirstChar_fst_props '?' _ c hc
        exact (splitFirstChar_fst_props '#' _ c hmem1).2
      have hpa_q : ∀ c ∈ (urlparseModel (pyStrip u)).path, c ≠ '?' := by
        rw [hPp]
        intro c hc
        exact (splitFirstChar_fst_props '?' _ c hc).2
      have hscheme2 : ∀ rest2,
          splitScheme ((urlparseModel (pyStrip u)).scheme ++ ':' :: rest2)
            = some ((urlparseModel (pyStrip u)).scheme, rest2) := by
        rw [hPs]
        exact hscheme
      have hkey : ∀ qopt : Option Str,
          (∀ qs, qopt = some qs → ∀ c ∈ qs, c ≠ '#') →
          clean_url (pyStrip u) = buildUrl (urlparseModel (pyStrip u)).scheme
            (urlparseModel (pyStrip u)).netloc (urlparseModel (pyStrip u)).path qopt →
          resolve_url (clean_url (pyStrip u)) = some (clean_url (pyStrip u)) := by
        intro qopt hq_hash hclean
        have hPB : urlparseModel (clean_url (pyStrip u))
            = ⟨(urlparseModel (pyStrip u)).scheme, (urlparseModel (pyStrip u)).netloc,
               (urlparseModel (pyStrip u)).path, qopt.getD []⟩ := by
          rw [hclean]
          exact urlparse_build _ _ _ qopt hscheme2 hn_all hpa_head hpa_hash hpa_q hq_hash
        have hcleanE : (clean_url (pyStrip u)).isEmpty = false := by
          rw [hclean]
          cases hs0 : (urlparseModel (pyStrip u)).scheme with
          | nil => rw [hPs] at hs0; exact absurd hs0 hs0ne
          | cons a as => rfl
        simp [resolve_url, hcleanE, hw, hb2, hPB, hsE, hnE]
      by_cases hF : ((parse_qs (urlparseModel (pyStrip u)).query).filter fun kv =>
          essential_params.contains (pyLower kv.1)).isEmpty = true
      · refine hkey none (by intro qs h; simp at h) ?_
        simp only [clean_url, hrE, Bool.false_eq_true, if_false, hres_r]
        rw [if_neg hq, if_pos hF]
      · refine hkey (some (urlencodeModel ((parse_qs (urlparseModel (pyStrip u)).query).filter
          fun kv => essential_params.contains (pyLower kv.1))))
          ?_ ?_
        · intro qs hqs
          have h2 := Option.some.inj hqs
          rw [← h2]
          exact urlencode_no_hash _
        · simp only [clean_url, hrE, Bool.false_eq_true, if_false, hres_r]
          rw [if_neg hq, if_neg hF]
    · exfalso
      have hnil : (urlparseModel (pyStrip u)).netloc = [] := by
        rw [hps]
        simp [parseAfterScheme, hsw]
      rw [hnil] at hnE
      simp at hnE

set_option maxRecDepth 8000 in
/-- Witness for the amended claim C4: a concrete URL with one
allow-listed and one stray query parameter; its cleaned form resolves to
itself. -/
theorem clean_url_round_trip_witness :
    resolve_url (lit "https://example.com/page?id=3&foo=bar")
      = some (pyStrip (lit "https://example.com/page?id=3&foo=bar"))
    ∧ resolve_url (clean_url (pyStrip (lit "https://example.com/page?id=3&foo=bar")))
      = some (clean_url (pyStrip (lit "https://example.com/page?id=3&foo=bar"))) :=
  clean_url_round_trip (lit "https://example.com/page?id=3&foo=bar")
    (by decide) (by decide) (by decide) (by decide)
